import Mathlib

/-
Verification development for the dynamic-flows network-loading engine
(`dynamic_flow.rs`, `depletion_queue.rs`, `piecewise_constant.rs`,
`piecewise_linear.rs`, `network_loader.rs`).

The generic scalar `T : Num` of the source (instantiated there with `F64`,
an ordered-float wrapper with a `+∞` sentinel and tolerance `TOL = 1e-9`)
is embedded as `FQ`: rationals extended with two infinities.  Arithmetic
on finite values is exact rational arithmetic; the infinite cases follow
IEEE conventions where IEEE defines them.  The few IEEE-undefined (NaN)
combinations, which the algorithm never produces on the inputs considered
in this file, are given fixed arbitrary results and are marked below.
-/

inductive FQ where
  | negInf : FQ
  | fin : ℚ → FQ
  | posInf : FQ
deriving DecidableEq, Repr

namespace FQ

def ZERO : FQ := fin 0
def ONE : FQ := fin 1
/-- Tolerance constant, mirroring `F64::TOL = 1e-9`. -/
def TOL : FQ := fin (1 / 1000000000)
def INFINITY : FQ := posInf

def le : FQ → FQ → Prop
  | negInf, _ => True
  | fin _, negInf => False
  | fin a, fin b => a ≤ b
  | fin _, posInf => True
  | posInf, posInf => True
  | posInf, negInf => False
  | posInf, fin _ => False

def lt : FQ → FQ → Prop
  | negInf, negInf => False
  | negInf, _ => True
  | fin _, negInf => False
  | fin a, fin b => a < b
  | fin _, posInf => True
  | posInf, _ => False

instance : LE FQ := ⟨le⟩
instance : LT FQ := ⟨lt⟩

instance decLe : (a b : FQ) → Decidable (a ≤ b)
  | negInf, negInf => isTrue trivial
  | negInf, fin _ => isTrue trivial
  | negInf, posInf => isTrue trivial
  | fin _, negInf => isFalse (fun h => h)
  | fin a, fin b => inferInstanceAs (Decidable (a ≤ b))
  | fin _, posInf => isTrue trivial
  | posInf, negInf => isFalse (fun h => h)
  | posInf, fin _ => isFalse (fun h => h)
  | posInf, posInf => isTrue trivial

instance decLt : (a b : FQ) → Decidable (a < b)
  | negInf, negInf => isFalse (fun h => h)
  | negInf, fin _ => isTrue trivial
  | negInf, posInf => isTrue trivial
  | fin _, negInf => isFalse (fun h => h)
  | fin a, fin b => inferInstanceAs (Decidable (a < b))
  | fin _, posInf => isTrue trivial
  | posInf, negInf => isFalse (fun h => h)
  | posInf, fin _ => isFalse (fun h => h)
  | posInf, posInf => isFalse (fun h => h)

/-- Rust `std::cmp::min` (returns the first argument on ties). -/
def min (a b : FQ) : FQ := if b < a then b else a

/-- Rust `std::cmp::max` (returns the second argument on ties). -/
def max (a b : FQ) : FQ := if b < a then a else b

def add : FQ → FQ → FQ
  | fin a, fin b => fin (a + b)
  | negInf, posInf => ZERO  -- IEEE NaN; never produced by the modelled code
  | posInf, negInf => ZERO  -- IEEE NaN; never produced by the modelled code
  | posInf, _ => posInf
  | _, posInf => posInf
  | _, _ => negInf

def neg : FQ → FQ
  | negInf => posInf
  | fin a => fin (-a)
  | posInf => negInf

def sub (a b : FQ) : FQ := add a (neg b)

def mul : FQ → FQ → FQ
  | fin a, fin b => fin (a * b)
  | posInf, posInf => posInf
  | posInf, negInf => negInf
  | negInf, posInf => negInf
  | negInf, negInf => posInf
  | posInf, fin b => if 0 < b then posInf else if b < 0 then negInf else ZERO
  | negInf, fin b => if 0 < b then negInf else if b < 0 then posInf else ZERO
  | fin a, posInf => if 0 < a then posInf else if a < 0 then negInf else ZERO
  | fin a, negInf => if 0 < a then negInf else if a < 0 then posInf else ZERO

def div : FQ → FQ → FQ
  | fin a, fin b =>
    if b = 0 then (if 0 < a then posInf else if a < 0 then negInf else ZERO)
    else fin (a / b)
  | fin _, posInf => ZERO
  | fin _, negInf => ZERO
  | posInf, fin b => if b < 0 then negInf else posInf
  | negInf, fin b => if b < 0 then posInf else negInf
  | posInf, posInf => ZERO  -- IEEE NaN; never produced by the modelled code
  | posInf, negInf => ZERO  -- IEEE NaN; never produced by the modelled code
  | negInf, posInf => ZERO  -- IEEE NaN; never produced by the modelled code
  | negInf, negInf => ZERO  -- IEEE NaN; never produced by the modelled code

/-- `num_traits::abs`. -/
def fabs : FQ → FQ
  | negInf => posInf
  | fin a => fin |a|
  | posInf => posInf

end FQ

instance : Add FQ := ⟨FQ.add⟩
instance : Sub FQ := ⟨FQ.sub⟩
instance : Neg FQ := ⟨FQ.neg⟩
instance : Mul FQ := ⟨FQ.mul⟩
instance : Div FQ := ⟨FQ.div⟩

/-- `Point(x, y)` from `point.rs`. -/
structure Pt where
  x : FQ
  y : FQ
deriving DecidableEq, Repr

/-- Result of `slice::binary_search_by_key`: `Ok rank` on an exact match,
`Err rank` otherwise. -/
inductive Rnk where
  | ok : ℕ → Rnk
  | err : ℕ → Rnk
deriving DecidableEq, Repr

/-- Core loop of Rust `slice::binary_search_by_key` over the x-coordinates,
searching for `key`.  The loop state is `(left, right)`; `fuel` bounds the
iteration count (the interval strictly shrinks each round, so `len + 1`
rounds always suffice). -/
def bsearchAux (keys : List FQ) (key : FQ) : ℕ → ℕ → ℕ → Rnk
  | _, left, 0 => .err left
  | left, right, fuel + 1 =>
    if left < right then
      let size := right - left
      let mid := left + size / 2
      let k := keys.getD mid FQ.ZERO
      if k < key then bsearchAux keys key (mid + 1) right fuel
      else if key < k then bsearchAux keys key left mid fuel
      else .ok mid
    else .err left

def bsearchByKey (keys : List FQ) (key : FQ) : Rnk :=
  bsearchAux keys key 0 keys.length (keys.length + 1)

/-- `PiecewiseConstant` from `piecewise_constant.rs`. -/
structure PiecewiseConstant where
  domain : FQ × FQ
  points : List Pt
deriving DecidableEq, Repr

namespace PiecewiseConstant

def get_rnk (f : PiecewiseConstant) (at_ : FQ) : Rnk :=
  bsearchByKey (f.points.map Pt.x) at_

def eval (f : PiecewiseConstant) (at_ : FQ) : FQ :=
  match f.get_rnk at_ with
  | .ok rnk => (f.points.getD rnk ⟨FQ.ZERO, FQ.ZERO⟩).y
  | .err rnk =>
    if rnk = 0 then (f.points.getD 0 ⟨FQ.ZERO, FQ.ZERO⟩).y
    else (f.points.getD (rnk - 1) ⟨FQ.ZERO, FQ.ZERO⟩).y

/-- Replaces the y-coordinate of the last point (`last_mut`). -/
def setLastY (ps : List Pt) (v : FQ) : List Pt :=
  match ps with
  | [] => []
  | [p] => [⟨p.x, v⟩]
  | p :: rest => p :: setLastY rest v

def lastD (ps : List Pt) : Pt := ps.getLast?.getD ⟨FQ.ZERO, FQ.ZERO⟩

/-- `PiecewiseConstant::extend`.  Precondition (debug assert in the source):
`from_time ≥ last.x − TOL`. -/
def extend (f : PiecewiseConstant) (from_time value : FQ) : PiecewiseConstant :=
  let last := lastD f.points
  if FQ.fabs (last.y - value) ≤ FQ.TOL then f
  else if FQ.fabs (last.x - from_time) ≤ FQ.TOL then
    { f with points := setLastY f.points value }
  else
    { f with points := f.points ++ [⟨from_time, value⟩] }

end PiecewiseConstant

/-- `PiecewiseLinear` from `piecewise_linear.rs`. -/
structure PiecewiseLinear where
  domain : FQ × FQ
  first_slope : FQ
  last_slope : FQ
  points : List Pt
deriving DecidableEq, Repr

namespace PiecewiseLinear

def get_rnk (f : PiecewiseLinear) (at_ : FQ) : Rnk :=
  bsearchByKey (f.points.map Pt.x) at_

def eval_with_rank (f : PiecewiseLinear) (rnk : Rnk) (at_ : FQ) : FQ :=
  match rnk with
  | .ok rnk => (f.points.getD rnk ⟨FQ.ZERO, FQ.ZERO⟩).y
  | .err rnk =>
    if rnk = f.points.length then
      let last := f.points.getD (rnk - 1) ⟨FQ.ZERO, FQ.ZERO⟩
      last.y + (at_ - last.x) * f.last_slope
    else if rnk = 0 then
      let first := f.points.getD 0 ⟨FQ.ZERO, FQ.ZERO⟩
      first.y + (at_ - first.x) * f.first_slope
    else
      let left := f.points.getD (rnk - 1) ⟨FQ.ZERO, FQ.ZERO⟩
      let right := f.points.getD rnk ⟨FQ.ZERO, FQ.ZERO⟩
      left.y + (at_ - left.x) * (right.y - left.y) / (right.x - left.x)

def eval (f : PiecewiseLinear) (at_ : FQ) : FQ :=
  f.eval_with_rank (f.get_rnk at_) at_

/-- Modelled from the spec: `PiecewiseLinear::extend` is absent from src
(only its call sites in `dynamic_flow.rs` exist).  Spec section 4.2:
"extend(t, new_slope): append a segment of slope new_slope starting at t.
Append a point (t, eval(t)) if necessary (tolerance-merged), then update
the function's effective last_slope to new_slope", with the requirement
that evaluation past the last point yields `last.y + (x − last.x)·new_slope`.
The tolerance merge skips the append when `t` is within `TOL` of the last
point's x-coordinate.  Extending backward (`t < last.x − TOL`) is a fatal
precondition violation per spec section 7; this total model performs the
append regardless. -/
def extend (f : PiecewiseLinear) (t new_slope : FQ) : PiecewiseLinear :=
  let last := PiecewiseConstant.lastD f.points
  if FQ.fabs (last.x - t) ≤ FQ.TOL then { f with last_slope := new_slope }
  else
    { f with points := f.points ++ [⟨t, f.eval t⟩], last_slope := new_slope }

end PiecewiseLinear

/-- `F64::EXACT_ARITHMETIC` (the inexact floating-point backend). -/
def EXACT_ARITHMETIC : Bool := false

/-- Association-list model of `HashMap`/`PriorityQueue` keyed storage:
lookup of the first entry with the given key. -/
def lookupA {κ α : Type} [DecidableEq κ] : List (κ × α) → κ → Option α
  | [], _ => none
  | p :: rest, k => if p.1 = k then some p.2 else lookupA rest k

/-- Insert-or-replace: replaces the first entry with the given key, else
appends.  Models `HashMap::insert` and `PriorityQueue::push` (which
updates the priority of an existing key). -/
def upsertA {κ α : Type} [DecidableEq κ] : List (κ × α) → κ → α → List (κ × α)
  | [], k, v => [(k, v)]
  | p :: rest, k, v => if p.1 = k then (k, v) :: rest else p :: upsertA rest k v

/-- Removes the first entry with the given key.  Models `remove`. -/
def eraseA {κ α : Type} [DecidableEq κ] : List (κ × α) → κ → List (κ × α)
  | [], _ => []
  | p :: rest, k => if p.1 = k then rest else p :: eraseA rest k

/-- Minimum priority among the entries (peek of a `Reverse`-keyed
`PriorityQueue`); `none` on an empty queue. -/
def minTimeA {κ : Type} (l : List (κ × FQ)) : Option FQ :=
  match l with
  | [] => none
  | p :: rest => some (rest.foldl (fun acc q => FQ.min acc q.2) p.2)

/-- Pops an entry attaining the minimal priority (the earliest entry among
ties; the crate's heap order among equal priorities is unspecified, and no
modelled observation depends on the choice). -/
def popMinA {κ : Type} : List (κ × FQ) → Option ((κ × FQ) × List (κ × FQ))
  | [] => none
  | p :: rest =>
    match popMinA rest with
    | some (q, rest') => if q.2 < p.2 then some (q, p :: rest') else some (p, rest)
    | none => some (p, [])

/-- Per-commodity rate map (`HashMap<usize, T>`). -/
abbrev Rates := List (ℕ × FQ)

/-- `sum_iter` from `num.rs`: fold with `+=` starting from `ZERO`. -/
def sumRates (m : Rates) : FQ := m.foldl (fun acc p => acc + p.2) FQ.ZERO

/-- `HashMap` equality: same key set, equal values (order-insensitive). -/
def ratesEqB (a b : Rates) : Bool :=
  a.all (fun p => decide (lookupA b p.1 = some p.2)) &&
  b.all (fun p => decide (lookupA a p.1 = some p.2))

namespace PiecewiseLinear

/-- `itertools::EitherOrBoth` for the point merge in `sum_op`. -/
inductive EOB where
  | lft : Pt → EOB
  | rgt : Pt → EOB
  | both : Pt → Pt → EOB
deriving DecidableEq, Repr

/-- `merge_join_by` on x-coordinates. -/
def mergeJoinBy : List Pt → List Pt → List EOB
  | [], [] => []
  | p :: ps, [] => .lft p :: mergeJoinBy ps []
  | [], q :: qs => .rgt q :: mergeJoinBy [] qs
  | p :: ps, q :: qs =>
    if p.x < q.x then .lft p :: mergeJoinBy ps (q :: qs)
    else if q.x < p.x then .rgt q :: mergeJoinBy (p :: ps) qs
    else .both p q :: mergeJoinBy ps qs

/-- `time_in_tolerance` closure in `sum_op`: true if `t` lies in the future
of the last pushed point by more than `TOL`. -/
def timeInTolB (t : FQ) (list : List Pt) : Bool :=
  match list.getLast? with
  | none => true
  | some p => decide (p.x < t - FQ.TOL)

/-- The main merge loop of `sum_op`, carrying the output vector and the
cursor indices `cur_i`, `cur_j`. -/
def sumLoop (lhs rhs : PiecewiseLinear) (op : FQ → FQ → FQ) :
    List EOB → List Pt → ℕ → ℕ → List Pt
  | [], acc, _, _ => acc
  | .lft p :: rest, acc, cur_i, cur_j =>
    let val := op p.y (rhs.eval_with_rank (.err cur_j) p.x)
    let acc' := if EXACT_ARITHMETIC || timeInTolB p.x acc then acc ++ [⟨p.x, val⟩] else acc
    sumLoop lhs rhs op rest acc' (cur_i + 1) cur_j
  | .rgt q :: rest, acc, cur_i, cur_j =>
    let val := op (lhs.eval_with_rank (.err cur_i) q.x) q.y
    let acc' := if EXACT_ARITHMETIC || timeInTolB q.x acc then acc ++ [⟨q.x, val⟩] else acc
    sumLoop lhs rhs op rest acc' cur_i (cur_j + 1)
  | .both p q :: rest, acc, cur_i, cur_j =>
    let val := op p.y q.y
    let acc' := if EXACT_ARITHMETIC || timeInTolB q.x acc then acc ++ [⟨q.x, val⟩] else acc
    sumLoop lhs rhs op rest acc' (cur_i + 1) (cur_j + 1)

/-- `Ok(i) => i, Err(i) => i` (range start from a rank). -/
def rnkIdx : Rnk → ℕ
  | .ok i => i
  | .err i => i

/-- `Ok(i) => i + 1, Err(i) => i` (range end from a rank). -/
def rnkEndIdx : Rnk → ℕ
  | .ok i => i + 1
  | .err i => i

/-- `sum_op` from `piecewise_linear.rs`: pointwise binary operation over the
intersected domain. -/
def sum_op (lhs rhs : PiecewiseLinear) (op : FQ → FQ → FQ) : PiecewiseLinear :=
  let new_domain : FQ × FQ :=
    (FQ.max lhs.domain.1 rhs.domain.1, FQ.min lhs.domain.2 rhs.domain.2)
  let l_domain_changed := new_domain.1 ≠ lhs.domain.1 ∨ new_domain.1 ≠ rhs.domain.1
  let r_domain_changed := new_domain.2 ≠ lhs.domain.2 ∨ new_domain.2 ≠ rhs.domain.2
  let fp : Option Pt × ℕ × ℕ :=
    if l_domain_changed then
      let at_ := new_domain.1
      let lhs_rnk := lhs.get_rnk at_
      let rhs_rnk := rhs.get_rnk at_
      let pt : Option Pt :=
        match lhs_rnk, rhs_rnk with
        | .ok _, _ => none
        | _, .ok _ => none
        | _, _ => some ⟨at_, op (lhs.eval_with_rank lhs_rnk at_) (rhs.eval_with_rank rhs_rnk at_)⟩
      (pt, rnkIdx lhs_rnk, rnkIdx rhs_rnk)
    else (none, 0, 0)
  let lp : Option Pt × ℕ × ℕ :=
    if r_domain_changed then
      let at_ := new_domain.2
      let lhs_rnk := lhs.get_rnk at_
      let rhs_rnk := rhs.get_rnk at_
      let pt : Option Pt :=
        match lhs_rnk, rhs_rnk with
        | .ok _, _ => none
        | _, .ok _ => none
        | _, _ => some ⟨at_, op (lhs.eval_with_rank lhs_rnk at_) (rhs.eval_with_rank rhs_rnk at_)⟩
      (pt, rnkEndIdx lhs_rnk, rnkEndIdx rhs_rnk)
    else (none, lhs.points.length, rhs.points.length)
  let lhs_rng : ℕ × ℕ := (fp.2.1, lp.2.1)
  let rhs_rng : ℕ × ℕ := (fp.2.2, lp.2.2)
  let start := match fp.1 with | some p => [p] | none => []
  let merged := mergeJoinBy ((lhs.points.take lhs_rng.2).drop lhs_rng.1)
                            ((rhs.points.take rhs_rng.2).drop rhs_rng.1)
  let body := sumLoop lhs rhs op merged start lhs_rng.1 rhs_rng.1
  let new_points := body ++ (match lp.1 with | some p => [p] | none => [])
  { domain := new_domain,
    first_slope := op lhs.first_slope rhs.first_slope,
    last_slope := op lhs.last_slope rhs.last_slope,
    points := new_points }

/-- `Add for &PiecewiseLinear`. -/
def addPL (lhs rhs : PiecewiseLinear) : PiecewiseLinear :=
  sum_op lhs rhs (fun a b => a + b)

end PiecewiseLinear

/-- `FlowRatesCollectionItem` from `dynamic_flow.rs`. -/
structure FRCItem where
  time : FQ
  values : Rates
deriving DecidableEq, Repr

/-- `FlowRatesCollection` from `dynamic_flow.rs`. -/
structure FlowRatesCollection where
  function_by_comm : List (ℕ × PiecewiseConstant)
  accumulative : PiecewiseLinear
  queue : List FRCItem
deriving DecidableEq, Repr

namespace FlowRatesCollection

def new : FlowRatesCollection :=
  { function_by_comm := [],
    accumulative :=
      ⟨(FQ.neg FQ.INFINITY, FQ.INFINITY), FQ.ZERO, FQ.ZERO, [⟨FQ.ZERO, FQ.ZERO⟩]⟩,
    queue := [] }

/-- Result of `get_values_at_time`: absent, a fatal precondition violation
("The desired time is not available anymore."), or the found rate map. -/
inductive GVRes where
  | noneRes : GVRes
  | panicRes : GVRes
  | okRes : Rates → GVRes
deriving DecidableEq, Repr

/-- The front-eviction loop: `while queue.get(1).is_some_and(|next| next.time <= time) { pop_front }`. -/
def evictLoop : List FRCItem → FQ → List FRCItem
  | a :: b :: rest, time =>
    if b.time ≤ time then evictLoop (b :: rest) time else a :: b :: rest
  | q, _ => q

def frontValues : List FRCItem → Rates
  | [] => []
  | item :: _ => item.values

/-- `FlowRatesCollection::get_values_at_time` (it mutates the collection by
evicting stale snapshots; the updated collection is returned alongside). -/
def get_values_at_time (c : FlowRatesCollection) (time : FQ) :
    GVRes × FlowRatesCollection :=
  match c.queue with
  | [] => (.noneRes, c)
  | item :: _ =>
    if time < item.time then (.panicRes, c)
    else
      let q' := evictLoop c.queue time
      (.okRes (frontValues q'), { c with queue := q' })

/-- `FlowRatesCollection::extend`.  The source's two branches on
`queue.back()` differ only in debug assertions; both seed a fresh
`PiecewiseConstant` on `[0, ∞)` for unseen commodities and `extend` the
existing one otherwise. -/
def extend (c : FlowRatesCollection) (from_time : FQ) (values_map : Rates)
    (values_sum : FQ) : FlowRatesCollection :=
  let fbc := values_map.foldl (fun fbc p =>
    match lookupA fbc p.1 with
    | none =>
      let new_fn : PiecewiseConstant := ⟨(FQ.ZERO, FQ.INFINITY), [⟨FQ.ZERO, FQ.ZERO⟩]⟩
      upsertA fbc p.1 (new_fn.extend from_time p.2)
    | some f => upsertA fbc p.1 (f.extend from_time p.2)) c.function_by_comm
  { function_by_comm := fbc,
    accumulative := c.accumulative.extend from_time values_sum,
    queue := c.queue ++ [⟨from_time, values_map⟩] }

end FlowRatesCollection

/-- `ChangeEventValue` from `depletion_queue.rs`. -/
structure ChangeEventValue where
  new_outflow_map : Rates
  values_sum : FQ
deriving DecidableEq, Repr

/-- `ChangeEvent` from `depletion_queue.rs`. -/
structure ChangeEvent where
  time : FQ
  value : ChangeEventValue
deriving DecidableEq, Repr

/-- `DepletionQueue` from `depletion_queue.rs`. -/
structure DepletionQueue where
  depletions : List (ℕ × FQ)
  change_times_after_a_depletion : List (ℕ × FQ)
  new_outflow : List (ℕ × ChangeEventValue)
deriving DecidableEq, Repr

namespace DepletionQueue

def new : DepletionQueue := ⟨[], [], []⟩

/-- `DepletionQueue::set`. -/
def set (q : DepletionQueue) (edge : ℕ) (depletion_time : FQ)
    (outflow_change_event : Option ChangeEvent) : DepletionQueue :=
  let deps := upsertA q.depletions edge depletion_time
  match outflow_change_event with
  | some change_event =>
    { depletions := deps,
      new_outflow := upsertA q.new_outflow edge change_event.value,
      change_times_after_a_depletion :=
        upsertA q.change_times_after_a_depletion edge change_event.time }
  | none =>
    if (lookupA q.change_times_after_a_depletion edge).isSome then
      { depletions := deps,
        change_times_after_a_depletion := eraseA q.change_times_after_a_depletion edge,
        new_outflow := eraseA q.new_outflow edge }
    else { q with depletions := deps }

/-- `DepletionQueue::remove`. -/
def remove (q : DepletionQueue) (edge : ℕ) : DepletionQueue :=
  { depletions := eraseA q.depletions edge,
    change_times_after_a_depletion := eraseA q.change_times_after_a_depletion edge,
    new_outflow := eraseA q.new_outflow edge }

/-- Result of `pop_by_depletion`: empty queue, the `unwrap` panic on a
missing change value (unreachable under the queue invariant), or the
popped triple. -/
inductive DQPop where
  | empty : DQPop
  | panicked : DQPop
  | popped : ℕ → FQ → Option ChangeEvent → DQPop
deriving DecidableEq, Repr

/-- `DepletionQueue::pop_by_depletion` (result plus updated queue). -/
def pop_by_depletion (q : DepletionQueue) : DQPop × DepletionQueue :=
  match popMinA q.depletions with
  | none => (.empty, q)
  | some ((edge, depletion_time), deps') =>
    match lookupA q.change_times_after_a_depletion edge with
    | none => (.popped edge depletion_time none, { q with depletions := deps' })
    | some change_time =>
      let q' : DepletionQueue :=
        { depletions := deps',
          change_times_after_a_depletion := eraseA q.change_times_after_a_depletion edge,
          new_outflow := eraseA q.new_outflow edge }
      match lookupA q.new_outflow edge with
      | none => (.panicked, q')
      | some v => (.popped edge depletion_time (some ⟨change_time, v⟩), q')

def min_depletion_time (q : DepletionQueue) : Option FQ := minTimeA q.depletions

def min_change_time (q : DepletionQueue) : Option FQ :=
  minTimeA q.change_times_after_a_depletion

end DepletionQueue

/-- Pointwise update of a per-edge vector (modelled as a total function;
`num_edges` only sizes the vectors in the source). -/
def updFn {α : Type} (f : ℕ → α) (e : ℕ) (v : α) : ℕ → α :=
  fun x => if x = e then v else f x

/-- Push into `outflow_changes`: the `PriorityQueue` is keyed by the pair
`PreprocessedOutflowChange { edge, change_time }` with priority
`change_time`, so re-pushing an existing key only rewrites its priority
with the same value. -/
def pushOC (l : List (ℕ × FQ)) (edge : ℕ) (change_time : FQ) : List (ℕ × FQ) :=
  if (edge, change_time) ∈ l then l else (edge, change_time) :: l

/-- Ghost log of the outflow extensions performed by a call: one
`(edge, values_sum)` entry per `outflow[edge].extend(_, _, values_sum)`.
Purely observational; it records the arguments at each call site. -/
abbrev OutflowLog := List (ℕ × FQ)

/-- `DynamicFlow` from `dynamic_flow.rs`. -/
structure DynamicFlow where
  built_until : FQ
  inflow : ℕ → FlowRatesCollection
  outflow : ℕ → FlowRatesCollection
  queues : ℕ → PiecewiseLinear
  outflow_changes : List (ℕ × FQ)
  depletions : DepletionQueue

namespace DynamicFlow

/-- `DynamicFlow::new`. -/
def new : DynamicFlow :=
  { built_until := FQ.ZERO,
    inflow := fun _ => FlowRatesCollection.new,
    outflow := fun _ => FlowRatesCollection.new,
    queues := fun _ =>
      ⟨(FQ.neg FQ.INFINITY, FQ.INFINITY), FQ.ZERO, FQ.ZERO, [⟨FQ.ZERO, FQ.ZERO⟩]⟩,
    outflow_changes := [],
    depletions := DepletionQueue.new }

/-- `DynamicFlow::_extend_case_i` (no new inflow). -/
def extendCaseI (s : DynamicFlow) (edge : ℕ)
    (cur_queue capacity inv_capacity travel_time : FQ) : DynamicFlow × OutflowLog :=
  let arrival := s.built_until + cur_queue * inv_capacity + travel_time
  let s' := { s with
    outflow := updFn s.outflow edge ((s.outflow edge).extend arrival [] FQ.ZERO),
    outflow_changes := pushOC s.outflow_changes edge arrival }
  if cur_queue = FQ.ZERO then
    ({ s' with
        queues := updFn s'.queues edge ((s'.queues edge).extend s'.built_until FQ.ZERO),
        depletions := s'.depletions.remove edge }, [(edge, FQ.ZERO)])
  else
    let queue_slope := FQ.neg capacity
    let depl_time := s'.built_until + cur_queue * inv_capacity
    ({ s' with
        queues := updFn s'.queues edge ((s'.queues edge).extend s'.built_until queue_slope),
        depletions := s'.depletions.set edge depl_time none }, [(edge, FQ.ZERO)])

/-- `DynamicFlow::_extend_case_ii` (empty queue or saturated inflow). -/
def extendCaseII (s : DynamicFlow) (edge : ℕ) (new_inflow_e : Rates)
    (cur_queue acc_in capacity inv_capacity travel_time : FQ) :
    DynamicFlow × OutflowLog :=
  let arrival := s.built_until + cur_queue * inv_capacity + travel_time
  let acc_out := FQ.min capacity acc_in
  let factor := acc_out / acc_in
  let outflow_map : Rates := new_inflow_e.map (fun p => (p.1, p.2 * factor))
  let s' := { s with
    outflow := updFn s.outflow edge ((s.outflow edge).extend arrival outflow_map acc_out),
    outflow_changes := pushOC s.outflow_changes edge arrival }
  let queue_slope := FQ.max (acc_in - capacity) FQ.ZERO
  ({ s' with
      queues := updFn s'.queues edge ((s'.queues edge).extend s'.built_until queue_slope),
      depletions := s'.depletions.remove edge }, [(edge, acc_out)])

/-- `DynamicFlow::_extend_case_iii` (draining queue with live inflow).
Note: `depl_time` is `built_until + cur_queue / queue_slope` with
`queue_slope = acc_in − capacity` exactly as in the source. -/
def extendCaseIII (s : DynamicFlow) (edge : ℕ) (new_inflow_e : Rates)
    (cur_queue acc_in capacity inv_capacity travel_time : FQ) :
    DynamicFlow × OutflowLog :=
  let arrival := s.built_until + cur_queue * inv_capacity + travel_time
  let factor := capacity / acc_in
  let outflow_map : Rates := new_inflow_e.map (fun p => (p.1, p.2 * factor))
  let s' := { s with
    outflow := updFn s.outflow edge ((s.outflow edge).extend arrival outflow_map capacity),
    outflow_changes := pushOC s.outflow_changes edge arrival }
  let queue_slope := acc_in - capacity
  let s'' := { s' with
    queues := updFn s'.queues edge ((s'.queues edge).extend s'.built_until queue_slope) }
  let depl_time := s''.built_until + cur_queue / queue_slope
  let planned_change_time := depl_time + travel_time
  ({ s'' with
      depletions := s''.depletions.set edge depl_time
        (some ⟨planned_change_time, ⟨outflow_map, acc_in⟩⟩) }, [(edge, capacity)])

/-- The per-edge body of the `for (edge, new_inflow_e) in new_inflow` loop
of `DynamicFlow::extend`.  The inflow snapshot read mutates (evicts)
`inflow[edge]` even on the skip path.  On the snapshot panic (a
precondition violation on which the source aborts) this total model
behaves as on an empty history. -/
def processEdge (capacity inv_capacity travel_time : ℕ → FQ) (s : DynamicFlow)
    (edge : ℕ) (new_inflow_e : Rates) : DynamicFlow × OutflowLog :=
  let gv := (s.inflow edge).get_values_at_time s.built_until
  let s0 := { s with inflow := updFn s.inflow edge gv.2 }
  let current : Rates :=
    match gv.1 with
    | .okRes m => m
    | _ => []
  if ratesEqB current new_inflow_e then (s0, [])
  else
    let acc_in := sumRates new_inflow_e
    let cur_queue := FQ.max ((s0.queues edge).eval s0.built_until) FQ.ZERO
    let s1 := { s0 with
      inflow := updFn s0.inflow edge
        ((s0.inflow edge).extend s0.built_until new_inflow_e acc_in) }
    let capacity_e := capacity edge
    let inv_capacity_e := inv_capacity edge
    let travel_time_e := travel_time edge
    if acc_in = FQ.ZERO then
      extendCaseI s1 edge cur_queue capacity_e inv_capacity_e travel_time_e
    else if cur_queue = FQ.ZERO ∨ capacity_e - FQ.TOL ≤ acc_in then
      extendCaseII s1 edge new_inflow_e cur_queue acc_in capacity_e inv_capacity_e
        travel_time_e
    else
      extendCaseIII s1 edge new_inflow_e cur_queue acc_in capacity_e inv_capacity_e
        travel_time_e

/-- The full edge-processing loop of `DynamicFlow::extend` (`new_inflow` is
modelled as an association list, processed in list order; `HashMap`
iteration order is arbitrary in the source). -/
def processNewInflow (s : DynamicFlow) (new_inflow : List (ℕ × Rates))
    (capacity inv_capacity travel_time : ℕ → FQ) : DynamicFlow × OutflowLog :=
  new_inflow.foldl
    (fun acc p =>
      let r := processEdge capacity inv_capacity travel_time acc.1 p.1 p.2
      (r.1, acc.2 ++ r.2))
    (s, [])

/-- The `built_until` computation of `DynamicFlow::extend` (lines 219-231):
fold `min` over the three optional candidates starting from `INFINITY`. -/
def computeNewBuiltUntil (s : DynamicFlow) (max_extension_time : Option FQ) : FQ :=
  let b0 := FQ.INFINITY
  let b1 := match s.depletions.min_change_time with
    | some time => FQ.min b0 time
    | none => b0
  let b2 := match minTimeA s.outflow_changes with
    | some time => FQ.min b1 time
    | none => b1
  match max_extension_time with
  | some time => FQ.min b2 time
  | none => b2

/-- The loop body of `_process_depletions`, with fuel: each iteration pops
exactly one depletion entry and never inserts one, so the initial queue
length bounds the iteration count exactly. -/
def processDepletionsLoop : ℕ → DynamicFlow → OutflowLog → DynamicFlow × OutflowLog
  | 0, s, log => (s, log)
  | fuel + 1, s, log =>
    match s.depletions.min_depletion_time with
    | none => (s, log)
    | some t =>
      if t ≤ s.built_until then
        match s.depletions.pop_by_depletion with
        | (.popped edge depl_time change_event, dq') =>
          let s1 := { s with depletions := dq' }
          let queue_e := (s1.queues edge).extend depl_time FQ.ZERO
          -- debug assert |last.y| < 1000·TOL, then the residual is zeroed
          let queue_e' :=
            { queue_e with points := PiecewiseConstant.setLastY queue_e.points FQ.ZERO }
          let s2 := { s1 with queues := updFn s1.queues edge queue_e' }
          match change_event with
          | some ev =>
            let s3 := { s2 with
              outflow := updFn s2.outflow edge
                ((s2.outflow edge).extend ev.time ev.value.new_outflow_map
                  ev.value.values_sum),
              outflow_changes := pushOC s2.outflow_changes edge ev.time }
            processDepletionsLoop fuel s3 (log ++ [(edge, ev.value.values_sum)])
          | none => processDepletionsLoop fuel s2 log
        | (_, dq') => ({ s with depletions := dq' }, log)
      else (s, log)

/-- `DynamicFlow::_process_depletions`. -/
def processDepletions (s : DynamicFlow) : DynamicFlow × OutflowLog :=
  if FQ.INFINITY ≤ s.built_until then (s, [])
  else processDepletionsLoop s.depletions.depletions.length s []

/-- The final reporting loop of `DynamicFlow::extend`: pop entries of
`outflow_changes` while the head's time is at most `built_until`,
collecting their edges.  Fuelled by the queue length (each iteration pops
one entry). -/
def collectChangedLoop : ℕ → List (ℕ × FQ) → FQ → List ℕ → List ℕ × List (ℕ × FQ)
  | 0, q, _, acc => (acc, q)
  | fuel + 1, q, b, acc =>
    match popMinA q with
    | none => (acc, q)
    | some ((edge, time), q') =>
      if time ≤ b then collectChangedLoop fuel q' b (acc ++ [edge]) else (acc, q)

/-- `DynamicFlow::extend`: returns the final state, the set of changed
edges (as a list; the source returns a `HashSet`), and the ghost log of
outflow extensions. -/
def extend (s : DynamicFlow) (new_inflow : List (ℕ × Rates))
    (max_extension_time : Option FQ) (capacity inv_capacity travel_time : ℕ → FQ) :
    DynamicFlow × List ℕ × OutflowLog :=
  let r1 := s.processNewInflow new_inflow capacity inv_capacity travel_time
  let s2 := { r1.1 with built_until := computeNewBuiltUntil r1.1 max_extension_time }
  let r3 := s2.processDepletions
  let s3 := r3.1
  if FQ.INFINITY ≤ s3.built_until then (s3, [], r1.2 ++ r3.2)
  else
    let cc := collectChangedLoop s3.outflow_changes.length s3.outflow_changes
      s3.built_until []
    ({ s3 with outflow_changes := cc.2 }, cc.1, r1.2 ++ r3.2)

end DynamicFlow

/-- The inner loop of `NetworkLoader::new`: for each `Point(time, value)`
of path `i`'s inflow schedule, push the key `(i, value)` with priority
`time` (`PriorityQueue::push` replaces the priority of an existing key). -/
def pushPathPoints (q : List ((ℕ × FQ) × FQ)) (i : ℕ) (pts : List Pt) :
    List ((ℕ × FQ) × FQ) :=
  pts.foldl (fun q p => upsertA q (i, p.y) p.x) q

/-- The `path_inflow_rate_changes` construction of `NetworkLoader::new`. -/
def pathInflowRateChanges (path_inflows : List PiecewiseConstant) :
    List ((ℕ × FQ) × FQ) :=
  path_inflows.enum.foldl (fun q ip => pushPathPoints q ip.1 ip.2.points) []


/-- Concrete per-edge parameter vector: all ones (unit capacity, unit
inverse capacity, unit travel time). -/
def onesF : ℕ → FQ := fun _ => FQ.ONE

/-- Concrete per-edge travel-time vector: all `+∞`. -/
def infTTF : ℕ → FQ := fun _ => FQ.INFINITY

def pwcW : PiecewiseConstant :=
  ⟨(FQ.negInf, FQ.posInf), [⟨FQ.ZERO, FQ.ZERO⟩]⟩

def frcW : FlowRatesCollection :=
  { function_by_comm := [], accumulative := FlowRatesCollection.new.accumulative,
    queue := [⟨FQ.ZERO, [(0, FQ.ONE)]⟩] }

/-- Trace: one unit-capacity edge, inflow `{0: 2}` at time 0 (case II). -/
def flowTrace1 : DynamicFlow × List ℕ × OutflowLog :=
  DynamicFlow.new.extend [(0, [(0, FQ.fin 2)])] none onesF onesF onesF

/-- Trace: second call on `flowTrace1`, inflow `{0: 1/2}` (case III: the
queue holds 1 unit and drains at rate 1/2). -/
def flowTrace2 : DynamicFlow × List ℕ × OutflowLog :=
  flowTrace1.1.extend [(0, [(0, FQ.fin (1 / 2))])] none onesF onesF onesF

/-- Trace: one edge with infinite travel time, unit inflow. -/
def c2Trace : DynamicFlow × List ℕ × OutflowLog :=
  DynamicFlow.new.extend [(0, [(0, FQ.ONE)])] none onesF onesF infTTF

/-- Trace: unit inflow of commodity 0 on edge 0. -/
def c5Trace1 : DynamicFlow × List ℕ × OutflowLog :=
  DynamicFlow.new.extend [(0, [(0, FQ.ONE)])] none onesF onesF onesF

/-- Trace: second call replacing the inflow map by `{1: 1}` — commodity 0
is no longer mentioned, so its outflow function is never updated. -/
def c5Trace2 : DynamicFlow × List ℕ × OutflowLog :=
  c5Trace1.1.extend [(0, [(1, FQ.ONE)])] none onesF onesF onesF

/-- Claim-side definition (C5's primary formulation): the sum over
commodities of the per-commodity outflow rates of an edge at time `t`,
evaluated on the stored `PiecewiseConstant` functions. -/
def sumCommEvalsAt (c : FlowRatesCollection) (t : FQ) : FQ :=
  c.function_by_comm.foldl (fun acc p => acc + p.2.eval t) FQ.ZERO

/-- Operations of the `DepletionQueue` public interface (for stating the
invariant over arbitrary operation sequences from `new`). -/
inductive DQOp where
  | setOp : ℕ → FQ → Option ChangeEvent → DQOp
  | removeOp : ℕ → DQOp
  | popOp : DQOp

def DQstep (q : DepletionQueue) : DQOp → DepletionQueue
  | .setOp e t ev => q.set e t ev
  | .removeOp e => q.remove e
  | .popOp => (q.pop_by_depletion).2

def DQrun (ops : List DQOp) : DepletionQueue :=
  ops.foldl DQstep DepletionQueue.new

/-- Nodup keys: the association list holds at most one entry per key
(automatic for `HashMap` and `PriorityQueue`, which store by key). -/
def keysND {κ α : Type} (l : List (κ × α)) : Prop := (l.map Prod.fst).Nodup

/-- The claim's coherence invariant for `DepletionQueue`: a change-time
entry exists iff a pending-value entry exists, and each change-time entry
has a depletion entry. -/
def DQInv (q : DepletionQueue) : Prop :=
  (∀ e, (lookupA q.change_times_after_a_depletion e).isSome ↔
        (lookupA q.new_outflow e).isSome) ∧
  (∀ e, (lookupA q.change_times_after_a_depletion e).isSome →
        (lookupA q.depletions e).isSome)

/-- Representation well-formedness: nodup keys in all three stores plus
the coherence invariant. -/
def DQWF (q : DepletionQueue) : Prop :=
  keysND q.depletions ∧ keysND q.change_times_after_a_depletion ∧
    keysND q.new_outflow ∧ DQInv q

/-- Operation sequence mirroring the source's depletion-queue unit test:
`set(1, 1.0, None)`. -/
def dqOpsW : List DQOp := [.setOp 1 FQ.ONE none]

/-- The state of `DynamicFlow::extend` after all edges of `new_inflow`
have been processed (just before the new `built_until` is computed). -/
def DynamicFlow.afterEdges (s : DynamicFlow) (new_inflow : List (ℕ × Rates))
    (capacity inv_capacity travel_time : ℕ → FQ) : DynamicFlow :=
  (s.processNewInflow new_inflow capacity inv_capacity travel_time).1

/-- The state of `DynamicFlow::extend` after the new `built_until` is set
and the depletions up to it are processed (just before the changed-edges
reporting loop). -/
def DynamicFlow.afterDepletions (s : DynamicFlow) (new_inflow : List (ℕ × Rates))
    (max_extension_time : Option FQ)
    (capacity inv_capacity travel_time : ℕ → FQ) : DynamicFlow :=
  let s1 := s.afterEdges new_inflow capacity inv_capacity travel_time
  let s2 := { s1 with built_until := DynamicFlow.computeNewBuiltUntil s1 max_extension_time }
  (s2.processDepletions).1

/-- Claim-side definition (C1): the list of candidate times for the new
`built_until` — the earliest pending change time of the `DepletionQueue`,
the head time of `outflow_changes`, and the caller's
`max_extension_time`, each when present. -/
def candidateTimes (s : DynamicFlow) (max_extension_time : Option FQ) : List FQ :=
  (s.depletions.min_change_time).toList ++ (minTimeA s.outflow_changes).toList ++
    max_extension_time.toList

/-- Runs a sequence of `extend` calls (each a `new_inflow` map plus an
optional `max_extension_time`) from `DynamicFlow::new` over fixed edge
parameters, concatenating the ghost outflow-extension logs. -/
def runExtends (capacity inv_capacity travel_time : ℕ → FQ) :
    List (List (ℕ × Rates) × Option FQ) → DynamicFlow × OutflowLog :=
  fun calls => calls.foldl
    (fun acc call =>
      let r := acc.1.extend call.1 call.2 capacity inv_capacity travel_time
      (r.1, acc.2 ++ r.2.2))
    (DynamicFlow.new, [])

/-- Every pending change-event value stored in the `DepletionQueue` has a
sum at most `capacity + TOL` of its edge. -/
def PendingSumsBounded (capacity : ℕ → FQ) (s : DynamicFlow) : Prop :=
  ∀ p ∈ s.depletions.new_outflow, (p.2).values_sum ≤ capacity p.1 + FQ.TOL

/-- Concrete path-inflow schedule with a repeated rate value (rate `1` at
times `0` and `2`, rate `2` at time `1`): three breakpoints but only two
distinct rate values. -/
def c10Pc : PiecewiseConstant :=
  ⟨(FQ.ZERO, FQ.posInf), [⟨FQ.ZERO, FQ.ONE⟩, ⟨FQ.ONE, FQ.fin 2⟩, ⟨FQ.fin 2, FQ.ONE⟩]⟩

/-- Mirror image of an `EitherOrBoth` value (used to state the symmetry of
the `merge_join_by` point merge in `sum_op`). -/
def PiecewiseLinear.EOB.swap : PiecewiseLinear.EOB → PiecewiseLinear.EOB
  | .lft p => .rgt p
  | .rgt p => .lft p
  | .both p q => .both q p

namespace FQ

theorem le_iff (a b : FQ) : (a ≤ b) ↔ FQ.le a b := Iff.rfl

theorem lt_iff (a b : FQ) : (a < b) ↔ FQ.lt a b := Iff.rfl

@[simp] theorem le_negInf_left (b : FQ) : FQ.le negInf b = True := by cases b <;> rfl

@[simp] theorem le_fin_negInf (a : ℚ) : FQ.le (fin a) negInf = False := rfl

@[simp] theorem le_fin_fin (a b : ℚ) : FQ.le (fin a) (fin b) = (a ≤ b) := rfl

@[simp] theorem le_fin_posInf (a : ℚ) : FQ.le (fin a) posInf = True := rfl

@[simp] theorem le_posInf_negInf : FQ.le posInf negInf = False := rfl

@[simp] theorem le_posInf_fin (b : ℚ) : FQ.le posInf (fin b) = False := rfl

@[simp] theorem le_posInf_posInf : FQ.le posInf posInf = True := rfl

@[simp] theorem lt_negInf_negInf : FQ.lt negInf negInf = False := rfl

@[simp] theorem lt_negInf_fin (b : ℚ) : FQ.lt negInf (fin b) = True := rfl

@[simp] theorem lt_negInf_posInf : FQ.lt negInf posInf = True := rfl

@[simp] theorem lt_fin_negInf (a : ℚ) : FQ.lt (fin a) negInf = False := rfl

@[simp] theorem lt_fin_fin (a b : ℚ) : FQ.lt (fin a) (fin b) = (a < b) := rfl

@[simp] theorem lt_fin_posInf (a : ℚ) : FQ.lt (fin a) posInf = True := rfl

@[simp] theorem lt_posInf_left (b : FQ) : FQ.lt posInf b = False := by cases b <;> rfl

@[simp] theorem add_fin_fin (a b : ℚ) : (fin a + fin b : FQ) = fin (a + b) := rfl

@[simp] theorem neg_fin (a : ℚ) : (-(fin a) : FQ) = fin (-a) := rfl

@[simp] theorem sub_fin_fin (a b : ℚ) : (fin a - fin b : FQ) = fin (a - b) := by
  show FQ.add (fin a) (FQ.neg (fin b)) = fin (a - b)
  simp [FQ.add, FQ.neg]
  ring

@[simp] theorem add_posInf_fin (b : ℚ) : (posInf + fin b : FQ) = posInf := rfl

@[simp] theorem add_fin_posInf (a : ℚ) : (fin a + posInf : FQ) = posInf := rfl

@[simp] theorem sub_posInf_fin (b : ℚ) : (posInf - fin b : FQ) = posInf := rfl

@[simp] theorem add_posInf_posInf : (posInf + posInf : FQ) = posInf := rfl

theorem le_refl' : ∀ a : FQ, a ≤ a := by
  intro a
  rw [le_iff]
  cases a <;> simp

theorem le_trans' : ∀ a b c : FQ, a ≤ b → b ≤ c → a ≤ c := by
  intro a b c hab hbc
  rw [le_iff] at hab hbc ⊢
  cases a <;> cases b <;> cases c <;> simp_all
  exact hab.trans hbc

theorem le_antisymm' : ∀ a b : FQ, a ≤ b → b ≤ a → a = b := by
  intro a b hab hba
  rw [le_iff] at hab hba
  cases a <;> cases b <;> simp_all
  exact hab.antisymm hba

theorem le_total' : ∀ a b : FQ, a ≤ b ∨ b ≤ a := by
  intro a b
  rw [le_iff, le_iff]
  cases a <;> cases b <;> simp
  exact le_total _ _

theorem lt_iff_le_not_le' : ∀ a b : FQ, a < b ↔ a ≤ b ∧ ¬ b ≤ a := by
  intro a b
  rw [lt_iff, le_iff, le_iff]
  cases a <;> cases b <;> simp
  exact le_of_lt

end FQ

instance FQ.linearOrder : LinearOrder FQ where
  le_refl := FQ.le_refl'
  le_trans := FQ.le_trans'
  le_antisymm := FQ.le_antisymm'
  le_total := FQ.le_total'
  lt_iff_le_not_le := FQ.lt_iff_le_not_le'
  decidableLE := FQ.decLe
  decidableLT := FQ.decLt
  decidableEq := inferInstance

namespace FQ

theorem min_eq_inf (a b : FQ) : FQ.min a b = a ⊓ b := by
  by_cases h : b < a
  · simp [FQ.min, h, min_def, (not_le.mpr h : ¬ a ≤ b)]
  · simp [FQ.min, h, min_def, (not_lt.mp h : a ≤ b)]

theorem max_eq_sup (a b : FQ) : FQ.max a b = a ⊔ b := by
  by_cases h : b < a
  · simp [FQ.max, h, max_def, (not_le.mpr h : ¬ a ≤ b)]
  · simp [FQ.max, h, max_def, (not_lt.mp h : a ≤ b)]

theorem le_INFINITY : ∀ a : FQ, a ≤ INFINITY := by
  intro a
  rw [le_iff]
  cases a <;> simp [INFINITY]

theorem add_comm' : ∀ a b : FQ, a + b = b + a := by
  intro a b
  show FQ.add a b = FQ.add b a
  cases a <;> cases b <;> simp [FQ.add]
  exact Rat.add_comm _ _

/-- For nonnegative capacities: `capacity ≤ capacity + TOL`. -/
theorem le_add_TOL_of_nonneg : ∀ a : FQ, ZERO ≤ a → a ≤ a + TOL := by
  intro a h
  rw [le_iff] at h ⊢
  cases a with
  | negInf => simp [ZERO] at h
  | fin q =>
    show FQ.le (fin q) (fin q + fin (1 / 1000000000))
    simp
  | posInf =>
    show FQ.le posInf (posInf + fin (1 / 1000000000))
    simp

/-- For nonnegative capacities: `capacity − TOL ≤ capacity + TOL`. -/
theorem sub_TOL_le_add_TOL_of_nonneg : ∀ a : FQ, ZERO ≤ a → a - TOL ≤ a + TOL := by
  intro a h
  rw [le_iff] at h ⊢
  cases a with
  | negInf => simp [ZERO] at h
  | fin q =>
    show FQ.le (fin q - fin (1 / 1000000000)) (fin q + fin (1 / 1000000000))
    simp
    linarith
  | posInf =>
    show FQ.le (posInf - fin (1 / 1000000000)) (posInf + fin (1 / 1000000000))
    simp

theorem ZERO_le_add_TOL_of_nonneg : ∀ a : FQ, ZERO ≤ a → ZERO ≤ a + TOL := by
  intro a h
  rw [le_iff] at h ⊢
  cases a with
  | negInf => simp [ZERO] at h
  | fin q =>
    show FQ.le (fin 0) (fin q + fin (1 / 1000000000))
    simp only [ZERO] at h
    rw [le_fin_fin] at h
    simp
    linarith
  | posInf =>
    show FQ.le (fin 0) (posInf + fin (1 / 1000000000))
    simp

end FQ


section ConcreteEvaluation

attribute [local semireducible] Rat.add Rat.mul Rat.inv Rat.sub

/-- If `t` obeys the extend precondition `t ≥ x − TOL` but is not within
`TOL` of `x`, then `x < t`. -/
theorem lt_of_pre_not_tol : ∀ x t : FQ, x - FQ.TOL ≤ t →
    ¬ FQ.fabs (x - t) ≤ FQ.TOL → x < t := by
  intro x t hpre h2
  have heps : (0 : ℚ) < 1 / 1000000000 := by norm_num
  cases x with
  | negInf =>
    cases t with
    | negInf =>
      exact absurd (show FQ.le (FQ.fin |(0 : ℚ)|) (FQ.fin (1 / 1000000000)) by
        rw [FQ.le_fin_fin]; norm_num) h2
    | fin b => exact trivial
    | posInf => exact trivial
  | fin a =>
    cases t with
    | negInf => exact False.elim hpre
    | fin b =>
      have hp : a + -(1 / 1000000000) ≤ b := hpre
      have h2' : ¬ (|a + -b| ≤ 1 / 1000000000) := h2
      rcases lt_abs.mp (not_le.mp h2') with h | h
      · exfalso; linarith
      · show a < b
        linarith
    | posInf => exact trivial
  | posInf =>
    cases t with
    | negInf => exact False.elim hpre
    | fin b => exact False.elim hpre
    | posInf =>
      exact absurd (show FQ.le (FQ.fin |(0 : ℚ)|) (FQ.fin (1 / 1000000000)) by
        rw [FQ.le_fin_fin]; norm_num) h2

theorem setLastY_map_x : ∀ (ps : List Pt) (v : FQ),
    (PiecewiseConstant.setLastY ps v).map Pt.x = ps.map Pt.x := by
  intro ps v
  induction ps with
  | nil => rfl
  | cons p rest ih =>
    cases rest with
    | nil => rfl
    | cons q rest' =>
      show p.x :: (PiecewiseConstant.setLastY (q :: rest') v).map Pt.x = _
      rw [ih]
      rfl

/-- C8: if a `PiecewiseConstant`'s point list is strictly ascending in x
and `extend(t, v)` is called with `t ≥ last.x − TOL`, the point list is
again strictly ascending in x after the call, in each of the three rule
branches (no change, overwrite of the last y, append). -/
theorem C8_pwc_extend_ascending (f : PiecewiseConstant) (t v : FQ)
    (hne : f.points ≠ [])
    (hasc : List.Chain' (fun p q : Pt => p.x < q.x) f.points)
    (hpre : (PiecewiseConstant.lastD f.points).x - FQ.TOL ≤ t) :
    List.Chain' (fun p q : Pt => p.x < q.x) (f.extend t v).points := by
  by_cases h1 : FQ.fabs ((PiecewiseConstant.lastD f.points).y - v) ≤ FQ.TOL
  · simpa [PiecewiseConstant.extend, h1] using hasc
  · by_cases h2 : FQ.fabs ((PiecewiseConstant.lastD f.points).x - t) ≤ FQ.TOL
    · simp only [PiecewiseConstant.extend, h1, h2, if_true, if_false]
      rw [← List.chain'_map (f := Pt.x)] at hasc ⊢
      rwa [setLastY_map_x]
    · simp only [PiecewiseConstant.extend, h1, h2, if_false]
      apply hasc.append (List.chain'_singleton _)
      intro x hx y hy
      have hlast : f.points.getLast? = some (f.points.getLast hne) :=
        List.getLast?_eq_getLast f.points hne
      rw [hlast] at hx
      simp only [Option.mem_def, Option.some.injEq] at hx
      simp only [List.head?_cons, Option.mem_def, Option.some.injEq] at hy
      subst hx
      subst hy
      have hld : PiecewiseConstant.lastD f.points = f.points.getLast hne := by
        unfold PiecewiseConstant.lastD
        rw [hlast]
        rfl
      rw [hld] at hpre h2
      exact lt_of_pre_not_tol _ _ hpre h2


theorem C8_witness :
    pwcW.points ≠ [] ∧
    List.Chain' (fun p q : Pt => p.x < q.x) pwcW.points ∧
    (PiecewiseConstant.lastD pwcW.points).x - FQ.TOL ≤ FQ.ONE ∧
    List.Chain' (fun p q : Pt => p.x < q.x) (pwcW.extend FQ.ONE (FQ.fin 2)).points :=
  ⟨by decide, List.chain'_singleton _, by decide,
    C8_pwc_extend_ascending pwcW FQ.ONE (FQ.fin 2) (by decide)
      (List.chain'_singleton _) (by decide)⟩

/-- C7: `get_values_at_time(t)` returns `None` iff the snapshot queue is
empty; it panics iff the queue is non-empty and the front entry's time is
strictly greater than `t`; otherwise it evicts from the front while the
second entry's time is ≤ t and returns the remaining front entry's map. -/
theorem C7_get_values_at_time_cases (c : FlowRatesCollection) (t : FQ) :
    ((c.get_values_at_time t).1 = .noneRes ↔ c.queue = []) ∧
    ((c.get_values_at_time t).1 = .panicRes ↔
      ∃ item rest, c.queue = item :: rest ∧ t < item.time) ∧
    (∀ item rest, c.queue = item :: rest → item.time ≤ t →
      (c.get_values_at_time t).1 =
        .okRes (FlowRatesCollection.frontValues
          (FlowRatesCollection.evictLoop c.queue t)) ∧
      ((c.get_values_at_time t).2).queue = FlowRatesCollection.evictLoop c.queue t) := by
  obtain ⟨fbc, acc, q⟩ := c
  cases q with
  | nil =>
    refine ⟨by simp [FlowRatesCollection.get_values_at_time], ?_, ?_⟩
    · simp [FlowRatesCollection.get_values_at_time]
    · intro item rest hcons
      exact absurd hcons (by simp)
  | cons item rest =>
    by_cases hlt : t < item.time
    · refine ⟨?_, ?_, ?_⟩
      · simp [FlowRatesCollection.get_values_at_time, hlt]
      · simp only [FlowRatesCollection.get_values_at_time, hlt, if_true]
        constructor
        · intro _
          exact ⟨item, rest, rfl, hlt⟩
        · intro _
          trivial
      · intro item' rest' hcons hle
        cases hcons
        exact absurd hlt (not_lt.mpr hle)
    · refine ⟨?_, ?_, ?_⟩
      · simp [FlowRatesCollection.get_values_at_time, hlt]
      · simp only [FlowRatesCollection.get_values_at_time, hlt, if_false]
        constructor
        · intro h
          exact absurd h (by simp)
        · rintro ⟨item', rest', hcons, hlt'⟩
          cases hcons
          exact absurd hlt' hlt
      · intro item' rest' hcons hle
        cases hcons
        simp only [FlowRatesCollection.get_values_at_time, hlt, if_false]
        constructor <;> trivial


theorem C7_witness :
    (frcW.get_values_at_time (FQ.fin (1 / 2))).1 =
      FlowRatesCollection.GVRes.okRes [(0, FQ.ONE)] := by
  have h := (C7_get_values_at_time_cases frcW (FQ.fin (1 / 2))).2.2
    ⟨FQ.ZERO, [(0, FQ.ONE)]⟩ [] rfl (by decide)
  exact h.1.trans (by decide)

end ConcreteEvaluation

section ConcreteTraces

attribute [local semireducible] Rat.add Rat.mul Rat.inv Rat.sub

/-- C4: the watermark is not monotone.  On the admissible trace
`flowTrace1; flowTrace2` (unit capacity and travel time, nonnegative
inflow rates 2 then 1/2), the second `extend` call decreases `built_until`
from 1 to 0: case III computes
`depl_time = built_until + cur_queue / (acc_in − capacity) = 1 + 1/(−1/2) = −1`
(the spec formula divides by `capacity − acc_in`), so the accompanying
change event at `depl_time + τ = 0` drags the new `built_until` below the
old one. -/
theorem C4_watermark_decreases :
    flowTrace1.1.built_until = FQ.fin 1 ∧
    flowTrace2.1.built_until = FQ.fin 0 ∧
    flowTrace2.1.built_until < flowTrace1.1.built_until := by
  refine ⟨?_, ?_, ?_⟩
  · set_option maxRecDepth 100000 in decide
  · set_option maxRecDepth 100000 in decide
  · set_option maxRecDepth 100000 in decide

/-- C3: on the same admissible trace, the mis-signed case-III depletion
(scheduled at −1, in the past) is processed immediately, extending the
queue function backward in time from its last breakpoint x = 1 to x = −1 —
a fatal precondition violation of `extend` — so the queue's point list is
no longer strictly ascending and the nonnegativity invariant machinery is
broken. -/
theorem C3_queue_corrupted :
    (flowTrace2.1.queues 0).points =
      [⟨FQ.fin 0, FQ.fin 0⟩, ⟨FQ.fin 1, FQ.fin 1⟩, ⟨FQ.fin (-1), FQ.fin 0⟩] ∧
    ¬ List.Chain' (fun p q : Pt => p.x < q.x) (flowTrace2.1.queues 0).points := by
  have hpts : (flowTrace2.1.queues 0).points =
      [⟨FQ.fin 0, FQ.fin 0⟩, ⟨FQ.fin 1, FQ.fin 1⟩, ⟨FQ.fin (-1), FQ.fin 0⟩] := by
    set_option maxRecDepth 100000 in decide
  refine ⟨hpts, ?_⟩
  rw [hpts, List.chain'_cons, List.chain'_cons]
  intro h
  exact absurd h.2.1 (by decide)

/-- C2 counterexample: with travel time `+∞`, the single call pushes the
entry `(0, ∞)` into `outflow_changes` and computes `built_until = ∞`; the
entry's change time satisfies `∞ ≤ built_until`, yet the call returns the
empty set and does not pop it — contradicting the claim for the
`built_until = +∞` case. -/
theorem C2_counterexample :
    c2Trace.2.1 = [] ∧
    (0, FQ.INFINITY) ∈ c2Trace.1.outflow_changes ∧
    FQ.INFINITY ≤ c2Trace.1.built_until := by
  refine ⟨?_, ?_, ?_⟩
  · set_option maxRecDepth 100000 in decide
  · set_option maxRecDepth 100000 in decide
  · set_option maxRecDepth 100000 in decide

/-- C5 counterexample: after extending edge 0 with `{0: 1}` and then with
`{1: 1}` (unit capacity), commodity 0's outflow function keeps its old
rate 1 while commodity 1's reaches 1, so at `t = 2 = built_until` the sum
over commodities of the per-commodity outflow rates is 2, exceeding
`capacity + TOL = 1 + 1e-9`. -/
theorem C5_counterexample :
    c5Trace2.1.built_until = FQ.fin 2 ∧
    sumCommEvalsAt (c5Trace2.1.outflow 0) (FQ.fin 2) = FQ.fin 2 ∧
    ¬ sumCommEvalsAt (c5Trace2.1.outflow 0) (FQ.fin 2) ≤ onesF 0 + FQ.TOL := by
  refine ⟨?_, ?_, ?_⟩
  · set_option maxRecDepth 100000 in decide
  · set_option maxRecDepth 100000 in decide
  · set_option maxRecDepth 100000 in decide

end ConcreteTraces

section AssocLemmas

variable {κ α : Type} [DecidableEq κ]

theorem lookupA_upsertA_self (l : List (κ × α)) (k : κ) (v : α) :
    lookupA (upsertA l k v) k = some v := by
  induction l with
  | nil => simp [upsertA, lookupA]
  | cons p rest ih =>
    by_cases h : p.1 = k
    · simp [upsertA, h, lookupA]
    · simp [upsertA, h, lookupA, ih]

theorem lookupA_upsertA_ne (l : List (κ × α)) (k k' : κ) (v : α) (h : k' ≠ k) :
    lookupA (upsertA l k v) k' = lookupA l k' := by
  have hkk' : ¬ (k = k') := fun hh => h hh.symm
  induction l with
  | nil => simp only [upsertA, lookupA, if_neg hkk']
  | cons p rest ih =>
    by_cases hp : p.1 = k
    · have hp' : ¬ (p.1 = k') := by rw [hp]; exact hkk'
      simp only [upsertA, if_pos hp, lookupA, if_neg hkk', if_neg hp']
    · by_cases hp' : p.1 = k'
      · simp only [upsertA, if_neg hp, lookupA, if_pos hp']
      · simp only [upsertA, if_neg hp, lookupA, if_neg hp', ih]

theorem lookupA_eraseA_ne (l : List (κ × α)) (k k' : κ) (h : k' ≠ k) :
    lookupA (eraseA l k) k' = lookupA l k' := by
  induction l with
  | nil => rfl
  | cons p rest ih =>
    by_cases hp : p.1 = k
    · have hp' : ¬ (p.1 = k') := by rw [hp]; exact fun hh => h hh.symm
      simp only [eraseA, if_pos hp, lookupA, if_neg hp']
    · by_cases hp' : p.1 = k'
      · simp only [eraseA, if_neg hp, lookupA, if_pos hp']
      · simp only [eraseA, if_neg hp, lookupA, if_neg hp', ih]

theorem lookupA_eq_none_of_not_mem_keys :
    ∀ (l : List (κ × α)) (k : κ), k ∉ l.map Prod.fst → lookupA l k = none := by
  intro l
  induction l with
  | nil => intro k _; rfl
  | cons p rest ih =>
    intro k h
    simp only [List.map_cons, List.mem_cons] at h
    push_neg at h
    have hp : ¬ (p.1 = k) := fun hh => h.1 hh.symm
    simp only [lookupA, if_neg hp]
    exact ih k h.2

theorem mem_keys_of_lookupA_isSome (l : List (κ × α)) (k : κ)
    (h : (lookupA l k).isSome) : k ∈ l.map Prod.fst := by
  by_contra hc
  rw [lookupA_eq_none_of_not_mem_keys l k hc] at h
  simp at h

theorem mem_keys_upsertA :
    ∀ (l : List (κ × α)) (k k' : κ) (v : α),
      k' ∈ (upsertA l k v).map Prod.fst ↔ k' ∈ l.map Prod.fst ∨ k' = k := by
  intro l
  induction l with
  | nil => intro k k' v; simp [upsertA]
  | cons p rest ih =>
    intro k k' v
    by_cases hp : p.1 = k
    · simp only [upsertA]
      rw [if_pos hp]
      simp only [List.map_cons, List.mem_cons]
      rw [hp]
      tauto
    · simp only [upsertA]
      rw [if_neg hp]
      simp only [List.map_cons, List.mem_cons]
      rw [ih k k' v]
      tauto

theorem keysND_upsertA :
    ∀ (l : List (κ × α)) (k : κ) (v : α), keysND l → keysND (upsertA l k v) := by
  intro l
  induction l with
  | nil => intro k v _; simp [upsertA, keysND]
  | cons p rest ih =>
    intro k v hnd
    unfold keysND at hnd ⊢
    simp only [List.map_cons, List.nodup_cons] at hnd
    by_cases hp : p.1 = k
    · simp only [upsertA]
      rw [if_pos hp]
      simp only [List.map_cons, List.nodup_cons]
      refine ⟨?_, hnd.2⟩
      rw [← hp]
      exact hnd.1
    · simp only [upsertA]
      rw [if_neg hp]
      simp only [List.map_cons, List.nodup_cons]
      refine ⟨?_, ih k v hnd.2⟩
      intro hc
      rcases (mem_keys_upsertA rest k p.1 v).mp hc with h | h
      · exact hnd.1 h
      · exact hp h

theorem mem_keys_eraseA :
    ∀ (l : List (κ × α)) (k k' : κ),
      k' ∈ (eraseA l k).map Prod.fst → k' ∈ l.map Prod.fst := by
  intro l
  induction l with
  | nil => intro k k' h; exact h
  | cons p rest ih =>
    intro k k' h
    by_cases hp : p.1 = k
    · simp only [eraseA] at h
      rw [if_pos hp] at h
      simp [List.mem_cons, h]
    · simp only [eraseA] at h
      rw [if_neg hp] at h
      simp only [List.map_cons, List.mem_cons] at h ⊢
      rcases h with h | h
      · exact Or.inl h
      · exact Or.inr (ih k k' h)

theorem keysND_eraseA :
    ∀ (l : List (κ × α)) (k : κ), keysND l → keysND (eraseA l k) := by
  intro l
  induction l with
  | nil => intro k h; exact h
  | cons p rest ih =>
    intro k hnd
    unfold keysND at hnd ⊢
    simp only [List.map_cons, List.nodup_cons] at hnd
    by_cases hp : p.1 = k
    · simp only [eraseA]
      rw [if_pos hp]
      exact hnd.2
    · simp only [eraseA]
      rw [if_neg hp]
      simp only [List.map_cons, List.nodup_cons]
      exact ⟨fun hc => hnd.1 (mem_keys_eraseA rest k p.1 hc), ih k hnd.2⟩

theorem lookupA_eraseA_self :
    ∀ (l : List (κ × α)) (k : κ), keysND l → lookupA (eraseA l k) k = none := by
  intro l
  induction l with
  | nil => intro k _; rfl
  | cons p rest ih =>
    intro k hnd
    unfold keysND at hnd
    simp only [List.map_cons, List.nodup_cons] at hnd
    by_cases hp : p.1 = k
    · simp only [eraseA]
      rw [if_pos hp]
      rw [← hp]
      exact lookupA_eq_none_of_not_mem_keys rest p.1 hnd.1
    · simp only [eraseA]
      rw [if_neg hp]
      simp only [lookupA, if_neg hp]
      exact ih k hnd.2

theorem lookupA_append (l1 l2 : List (κ × α)) (k : κ) :
    lookupA (l1 ++ l2) k =
      match lookupA l1 k with
      | some v => some v
      | none => lookupA l2 k := by
  induction l1 with
  | nil => simp [lookupA]
  | cons p rest ih =>
    by_cases hp : p.1 = k
    · simp [lookupA, hp]
    · simp [lookupA, hp, ih]

end AssocLemmas

theorem popMinA_eq_none {κ : Type} (l : List (κ × FQ)) :
    popMinA l = none ↔ l = [] := by
  cases l with
  | nil => simp [popMinA]
  | cons p rest =>
    simp only [popMinA]
    cases hr : popMinA rest with
    | none => simp
    | some qr =>
      by_cases h : qr.1.2 < p.2 <;> simp [h]

theorem popMinA_spec {κ : Type} :
    ∀ (l rest : List (κ × FQ)) (m : κ × FQ), popMinA l = some (m, rest) →
      ∃ l1 l2, l = l1 ++ m :: l2 ∧ rest = l1 ++ l2 := by
  intro l
  induction l with
  | nil => intro rest m h; simp [popMinA] at h
  | cons p tl ih =>
    intro rest m h
    rw [popMinA] at h
    cases htl : popMinA tl with
    | none =>
      rw [htl] at h
      have h' : some (p, ([] : List (κ × FQ))) = some (m, rest) := h
      have htl' : tl = [] := (popMinA_eq_none tl).mp htl
      subst htl'
      simp only [Option.some.injEq, Prod.mk.injEq] at h'
      exact ⟨[], [], by simp [h'.1], by simp [h'.2]⟩
    | some qr =>
      obtain ⟨q, rest2⟩ := qr
      rw [htl] at h
      have h' : (if q.2 < p.2 then some (q, p :: rest2) else some (p, tl))
          = some (m, rest) := h
      by_cases hlt : q.2 < p.2
      · rw [if_pos hlt] at h'
        simp only [Option.some.injEq, Prod.mk.injEq] at h'
        obtain ⟨l1, l2, hl, hr2⟩ := ih rest2 q htl
        refine ⟨p :: l1, l2, ?_, ?_⟩
        · rw [← h'.1]
          simp [hl]
        · rw [← h'.2, hr2]
          rfl
      · rw [if_neg hlt] at h'
        simp only [Option.some.injEq, Prod.mk.injEq] at h'
        exact ⟨[], tl, by simp [h'.1], by simp [h'.2]⟩

theorem popMinA_min {κ : Type} :
    ∀ (l rest : List (κ × FQ)) (m : κ × FQ), popMinA l = some (m, rest) →
      ∀ p ∈ l, m.2 ≤ p.2 := by
  intro l
  induction l with
  | nil => intro rest m h; simp [popMinA] at h
  | cons p tl ih =>
    intro rest m h x hx
    rw [popMinA] at h
    cases htl : popMinA tl with
    | none =>
      rw [htl] at h
      have h' : some (p, ([] : List (κ × FQ))) = some (m, rest) := h
      have htl' : tl = [] := (popMinA_eq_none tl).mp htl
      simp only [Option.some.injEq, Prod.mk.injEq] at h'
      subst htl'
      rcases List.mem_singleton.mp hx with rfl
      rw [← h'.1]
    | some qr =>
      obtain ⟨q, rest2⟩ := qr
      rw [htl] at h
      have h' : (if q.2 < p.2 then some (q, p :: rest2) else some (p, tl))
          = some (m, rest) := h
      by_cases hlt : q.2 < p.2
      · rw [if_pos hlt] at h'
        simp only [Option.some.injEq, Prod.mk.injEq] at h'
        rcases List.mem_cons.mp hx with rfl | hx'
        · rw [← h'.1]
          exact le_of_lt hlt
        · rw [← h'.1]
          exact ih rest2 q htl x hx'
      · rw [if_neg hlt] at h'
        simp only [Option.some.injEq, Prod.mk.injEq] at h'
        rcases List.mem_cons.mp hx with rfl | hx'
        · rw [← h'.1]
        · rw [← h'.1]
          exact le_trans (not_lt.mp hlt) (ih rest2 q htl x hx')

theorem popMinA_mem {κ : Type} (l rest : List (κ × FQ)) (m : κ × FQ)
    (h : popMinA l = some (m, rest)) : m ∈ l := by
  obtain ⟨l1, l2, hl, _⟩ := popMinA_spec l rest m h
  simp [hl]

theorem popMinA_rest_subset {κ : Type} (l rest : List (κ × FQ)) (m : κ × FQ)
    (h : popMinA l = some (m, rest)) : ∀ x ∈ rest, x ∈ l := by
  obtain ⟨l1, l2, hl, hr⟩ := popMinA_spec l rest m h
  intro x hx
  rw [hr] at hx
  rw [hl]
  rcases List.mem_append.mp hx with h' | h'
  · exact List.mem_append.mpr (Or.inl h')
  · simp [h']

theorem popMinA_mem_rest {κ : Type} (l rest : List (κ × FQ)) (m : κ × FQ)
    (h : popMinA l = some (m, rest)) : ∀ x ∈ l, x = m ∨ x ∈ rest := by
  obtain ⟨l1, l2, hl, hr⟩ := popMinA_spec l rest m h
  intro x hx
  rw [hl] at hx
  rw [hr]
  rcases List.mem_append.mp hx with h' | h'
  · exact Or.inr (List.mem_append.mpr (Or.inl h'))
  · rcases List.mem_cons.mp h' with h'' | h''
    · exact Or.inl h''
    · exact Or.inr (List.mem_append.mpr (Or.inr h''))

theorem popMinA_length {κ : Type} (l rest : List (κ × FQ)) (m : κ × FQ)
    (h : popMinA l = some (m, rest)) : l.length = rest.length + 1 := by
  obtain ⟨l1, l2, hl, hr⟩ := popMinA_spec l rest m h
  subst hl
  subst hr
  simp
  omega

theorem lookupA_middle {κ α : Type} [DecidableEq κ] (l1 l2 : List (κ × α))
    (m : κ × α) (k : κ) (hk : k ≠ m.1) :
    lookupA (l1 ++ m :: l2) k = lookupA (l1 ++ l2) k := by
  rw [lookupA_append, lookupA_append]
  cases lookupA l1 k with
  | some v => rfl
  | none =>
    show lookupA (m :: l2) k = lookupA l2 k
    simp only [lookupA, if_neg (fun hh => hk hh.symm : ¬ (m.1 = k))]

theorem keysND_middle {κ α : Type} (l1 l2 : List (κ × α)) (m : κ × α)
    (hnd : keysND (l1 ++ m :: l2)) :
    keysND (l1 ++ l2) ∧ m.1 ∉ (l1 ++ l2).map Prod.fst := by
  unfold keysND at hnd ⊢
  rw [List.map_append, List.map_cons] at hnd
  rw [List.map_append]
  rw [List.nodup_append] at hnd
  obtain ⟨h1, h2, h3⟩ := hnd
  rw [List.nodup_cons] at h2
  rw [List.nodup_append]
  refine ⟨⟨h1, h2.2, ?_⟩, ?_⟩
  · intro a ha hb
    exact h3 ha (List.mem_cons_of_mem _ hb)
  · intro hc
    rcases List.mem_append.mp hc with hc | hc
    · exact h3 hc (List.mem_cons_self _ _)
    · exact h2.1 hc

/-- Consequences of popping the minimal entry from a nodup-keyed queue. -/
theorem popMinA_pop_keys {κ : Type} [DecidableEq κ] (l rest : List (κ × FQ))
    (k : κ) (t : FQ) (h : popMinA l = some ((k, t), rest)) (hnd : keysND l) :
    keysND rest ∧ lookupA rest k = none ∧
      (∀ k', k' ≠ k → lookupA rest k' = lookupA l k') := by
  obtain ⟨l1, l2, hl, hr⟩ := popMinA_spec l rest (k, t) h
  subst hl
  subst hr
  obtain ⟨hnd', hnotmem⟩ := keysND_middle l1 l2 (k, t) hnd
  refine ⟨hnd', ?_, ?_⟩
  · exact lookupA_eq_none_of_not_mem_keys _ _ hnotmem
  · intro k' hk'
    exact (lookupA_middle l1 l2 (k, t) k' hk').symm

theorem DQWF_new : DQWF DepletionQueue.new := by
  refine ⟨by simp [DepletionQueue.new, keysND], by simp [DepletionQueue.new, keysND],
    by simp [DepletionQueue.new, keysND], ?_, ?_⟩ <;> intro e <;>
    simp [DepletionQueue.new, lookupA]

theorem DQWF_set (q : DepletionQueue) (e : ℕ) (t : FQ) (ev : Option ChangeEvent)
    (h : DQWF q) : DQWF (q.set e t ev) := by
  obtain ⟨hd, hc, hn, hiff, himp⟩ := h
  cases ev with
  | some ce =>
    have hgoal : q.set e t (some ce) =
        ⟨upsertA q.depletions e t,
         upsertA q.change_times_after_a_depletion e ce.time,
         upsertA q.new_outflow e ce.value⟩ := rfl
    rw [hgoal]
    refine ⟨keysND_upsertA _ _ _ hd, keysND_upsertA _ _ _ hc,
      keysND_upsertA _ _ _ hn, ?_, ?_⟩
    · intro e'
      by_cases he : e' = e
      · subst he
        simp [lookupA_upsertA_self]
      · show (lookupA (upsertA q.change_times_after_a_depletion e ce.time) e').isSome ↔
          (lookupA (upsertA q.new_outflow e ce.value) e').isSome
        rw [lookupA_upsertA_ne _ _ _ _ he, lookupA_upsertA_ne _ _ _ _ he]
        exact hiff e'
    · intro e'
      by_cases he : e' = e
      · subst he
        simp [lookupA_upsertA_self]
      · show (lookupA (upsertA q.change_times_after_a_depletion e ce.time) e').isSome →
          (lookupA (upsertA q.depletions e t) e').isSome
        rw [lookupA_upsertA_ne _ _ _ _ he, lookupA_upsertA_ne _ _ _ _ he]
        exact himp e'
  | none =>
    by_cases hs : (lookupA q.change_times_after_a_depletion e).isSome
    · have hgoal : q.set e t none =
          ⟨upsertA q.depletions e t,
           eraseA q.change_times_after_a_depletion e,
           eraseA q.new_outflow e⟩ := by
        simp only [DepletionQueue.set, if_pos hs]
      rw [hgoal]
      refine ⟨keysND_upsertA _ _ _ hd, keysND_eraseA _ _ hc, keysND_eraseA _ _ hn,
        ?_, ?_⟩
      · intro e'
        by_cases he : e' = e
        · subst he
          show (lookupA (eraseA q.change_times_after_a_depletion e') e').isSome ↔
            (lookupA (eraseA q.new_outflow e') e').isSome
          rw [lookupA_eraseA_self _ _ hc, lookupA_eraseA_self _ _ hn]
          exact Iff.rfl
        · show (lookupA (eraseA q.change_times_after_a_depletion e) e').isSome ↔
            (lookupA (eraseA q.new_outflow e) e').isSome
          rw [lookupA_eraseA_ne _ _ _ he, lookupA_eraseA_ne _ _ _ he]
          exact hiff e'
      · intro e'
        by_cases he : e' = e
        · subst he
          show (lookupA (eraseA q.change_times_after_a_depletion e') e').isSome →
            (lookupA (upsertA q.depletions e' t) e').isSome
          rw [lookupA_eraseA_self _ _ hc]
          simp
        · show (lookupA (eraseA q.change_times_after_a_depletion e) e').isSome →
            (lookupA (upsertA q.depletions e t) e').isSome
          rw [lookupA_eraseA_ne _ _ _ he, lookupA_upsertA_ne _ _ _ _ he]
          exact himp e'
    · have hgoal : q.set e t none = ⟨upsertA q.depletions e t,
          q.change_times_after_a_depletion, q.new_outflow⟩ := by
        simp only [DepletionQueue.set, if_neg hs]
      rw [hgoal]
      refine ⟨keysND_upsertA _ _ _ hd, hc, hn, hiff, ?_⟩
      intro e'
      by_cases he : e' = e
      · subst he
        intro hsome
        exact absurd hsome hs
      · show (lookupA q.change_times_after_a_depletion e').isSome →
          (lookupA (upsertA q.depletions e t) e').isSome
        rw [lookupA_upsertA_ne _ _ _ _ he]
        exact himp e'

theorem DQWF_remove (q : DepletionQueue) (e : ℕ) (h : DQWF q) :
    DQWF (q.remove e) := by
  obtain ⟨hd, hc, hn, hiff, himp⟩ := h
  refine ⟨keysND_eraseA _ _ hd, keysND_eraseA _ _ hc, keysND_eraseA _ _ hn, ?_, ?_⟩
  · intro e'
    by_cases he : e' = e
    · subst he
      simp only [DepletionQueue.remove]
      rw [lookupA_eraseA_self _ _ hc, lookupA_eraseA_self _ _ hn]
      exact Iff.rfl
    · simp only [DepletionQueue.remove]
      rw [lookupA_eraseA_ne _ _ _ he, lookupA_eraseA_ne _ _ _ he]
      exact hiff e'
  · intro e'
    by_cases he : e' = e
    · subst he
      simp only [DepletionQueue.remove]
      rw [lookupA_eraseA_self _ _ hc]
      simp
    · simp only [DepletionQueue.remove]
      rw [lookupA_eraseA_ne _ _ _ he, lookupA_eraseA_ne _ _ _ he]
      exact himp e'

/-- Behaviour of `pop_by_depletion` on a well-formed queue: the popped
change event is exactly the stored pair, the popped edge is removed from
all three stores, and the `unwrap` panic is unreachable. -/
theorem DQ_pop_props (q : DepletionQueue) (h : DQWF q) :
    DQWF (q.pop_by_depletion).2 ∧
    (q.pop_by_depletion).1 ≠ .panicked ∧
    (∀ e t ev, (q.pop_by_depletion).1 = .popped e t ev →
      (ev = match lookupA q.change_times_after_a_depletion e,
                  lookupA q.new_outflow e with
            | some ct, some v => some ⟨ct, v⟩
            | _, _ => none) ∧
      lookupA ((q.pop_by_depletion).2).change_times_after_a_depletion e = none ∧
      lookupA ((q.pop_by_depletion).2).new_outflow e = none ∧
      lookupA ((q.pop_by_depletion).2).depletions e = none) := by
  obtain ⟨hd, hc, hn, hiff, himp⟩ := h
  cases hpop : popMinA q.depletions with
  | none =>
    have hres : q.pop_by_depletion = (.empty, q) := by
      simp only [DepletionQueue.pop_by_depletion, hpop]
    rw [hres]
    refine ⟨⟨hd, hc, hn, hiff, himp⟩, by simp, ?_⟩
    intro e t ev hcontra
    exact absurd hcontra (by simp)
  | some mr =>
    obtain ⟨⟨edge, dt⟩, deps'⟩ := mr
    obtain ⟨hdnd', hdlook, hdpres⟩ := popMinA_pop_keys _ _ _ _ hpop hd
    cases hct : lookupA q.change_times_after_a_depletion edge with
    | none =>
      have hres : q.pop_by_depletion =
          (.popped edge dt none, { q with depletions := deps' }) := by
        simp only [DepletionQueue.pop_by_depletion, hpop, hct]
      rw [hres]
      have hno : lookupA q.new_outflow edge = none := by
        have := hiff edge
        rw [hct] at this
        simp only [Option.isSome_none, Bool.false_eq_true, false_iff] at this
        exact Option.not_isSome_iff_eq_none.mp this
      refine ⟨⟨hdnd', hc, hn, hiff, ?_⟩, by simp, ?_⟩
      · intro e' hsome
        by_cases he : e' = edge
        · subst he
          rw [hct] at hsome
          simp at hsome
        · rw [hdpres e' he]
          exact himp e' hsome
      · intro e t ev hpopped
        cases hpopped
        refine ⟨by rw [hct], by exact hct, hno, hdlook⟩
    | some ct =>
      have hvs : (lookupA q.new_outflow edge).isSome := by
        apply (hiff edge).mp
        rw [hct]
        rfl
      cases hno : lookupA q.new_outflow edge with
      | none => rw [hno] at hvs; simp at hvs
      | some v =>
        have hres : q.pop_by_depletion =
            (.popped edge dt (some ⟨ct, v⟩),
             ⟨deps', eraseA q.change_times_after_a_depletion edge,
              eraseA q.new_outflow edge⟩) := by
          simp only [DepletionQueue.pop_by_depletion, hpop, hct, hno]
        rw [hres]
        refine ⟨⟨hdnd', keysND_eraseA _ _ hc, keysND_eraseA _ _ hn, ?_, ?_⟩,
          by simp, ?_⟩
        · intro e'
          by_cases he : e' = edge
          · subst he
            show (lookupA (eraseA q.change_times_after_a_depletion e') e').isSome ↔
              (lookupA (eraseA q.new_outflow e') e').isSome
            rw [lookupA_eraseA_self _ _ hc, lookupA_eraseA_self _ _ hn]
            exact Iff.rfl
          · show (lookupA (eraseA q.change_times_after_a_depletion edge) e').isSome ↔
              (lookupA (eraseA q.new_outflow edge) e').isSome
            rw [lookupA_eraseA_ne _ _ _ he, lookupA_eraseA_ne _ _ _ he]
            exact hiff e'
        · intro e' hsome
          by_cases he : e' = edge
          · subst he
            rw [show (lookupA (eraseA q.change_times_after_a_depletion e') e') = none
              from lookupA_eraseA_self _ _ hc] at hsome
            simp at hsome
          · rw [lookupA_eraseA_ne _ _ _ he] at hsome
            show (lookupA deps' e').isSome
            rw [hdpres e' he]
            exact himp e' hsome
        · intro e t ev hpopped
          cases hpopped
          refine ⟨by rw [hct, hno], ?_, ?_, hdlook⟩
          · exact lookupA_eraseA_self _ _ hc
          · exact lookupA_eraseA_self _ _ hn

theorem DQWF_foldl (ops : List DQOp) :
    ∀ q : DepletionQueue, DQWF q → DQWF (ops.foldl DQstep q) := by
  induction ops with
  | nil => intro q h; exact h
  | cons op rest ih =>
    intro q h
    apply ih
    cases op with
    | setOp e t ev => exact DQWF_set q e t ev h
    | removeOp e => exact DQWF_remove q e h
    | popOp => exact (DQ_pop_props q h).1

/-- C6: after any sequence of `DepletionQueue` operations from `new`, an
edge has a change-time entry iff it has a pending-value entry, every edge
with a change-time entry also has a depletion entry, and
`pop_by_depletion` returns exactly the stored change event for the popped
edge, removing it from both stores (and its `unwrap` never panics). -/
theorem C6_depletion_queue_invariant (ops : List DQOp) :
    DQInv (DQrun ops) ∧
    ((DQrun ops).pop_by_depletion).1 ≠ .panicked ∧
    (∀ e t ev, ((DQrun ops).pop_by_depletion).1 = .popped e t ev →
      (ev = match lookupA (DQrun ops).change_times_after_a_depletion e,
                  lookupA (DQrun ops).new_outflow e with
            | some ct, some v => some ⟨ct, v⟩
            | _, _ => none) ∧
      lookupA (((DQrun ops).pop_by_depletion).2).change_times_after_a_depletion e
        = none ∧
      lookupA (((DQrun ops).pop_by_depletion).2).new_outflow e = none ∧
      lookupA (((DQrun ops).pop_by_depletion).2).depletions e = none) := by
  have hwf : DQWF (DQrun ops) := DQWF_foldl ops DepletionQueue.new DQWF_new
  obtain ⟨h1, h2, h3⟩ := DQ_pop_props (DQrun ops) hwf
  exact ⟨hwf.2.2.2, h2, h3⟩

theorem C6_witness :
    ((DQrun dqOpsW).pop_by_depletion).1 = .popped 1 FQ.ONE none ∧
    lookupA (((DQrun dqOpsW).pop_by_depletion).2).depletions 1 = none :=
  ⟨by decide,
    (((C6_depletion_queue_invariant dqOpsW).2.2) 1 FQ.ONE none (by decide)).2.2.2⟩

theorem processDepletionsLoop_built_until :
    ∀ (fuel : ℕ) (s : DynamicFlow) (log : OutflowLog),
      ((DynamicFlow.processDepletionsLoop fuel s log).1).built_until = s.built_until := by
  intro fuel
  induction fuel with
  | zero => intro s log; rfl
  | succ fuel ih =>
    intro s log
    rw [DynamicFlow.processDepletionsLoop]
    repeat' split
    all_goals first | rfl | exact ih _ _

theorem processDepletions_built_until (s : DynamicFlow) :
    ((s.processDepletions).1).built_until = s.built_until := by
  unfold DynamicFlow.processDepletions
  by_cases h : FQ.INFINITY ≤ s.built_until
  · rw [if_pos h]
  · rw [if_neg h]
    exact processDepletionsLoop_built_until _ _ _

theorem extend_built_until_eq (s : DynamicFlow) (new_inflow : List (ℕ × Rates))
    (maxExt : Option FQ) (cap inv tt : ℕ → FQ) :
    ((s.extend new_inflow maxExt cap inv tt).1).built_until =
      DynamicFlow.computeNewBuiltUntil (s.afterEdges new_inflow cap inv tt) maxExt := by
  unfold DynamicFlow.extend DynamicFlow.afterEdges
  set s1 := (s.processNewInflow new_inflow cap inv tt).1
  set b := DynamicFlow.computeNewBuiltUntil s1 maxExt
  set s2 : DynamicFlow := { s1 with built_until := b }
  have h3 : (s2.processDepletions).1.built_until = b := processDepletions_built_until s2
  by_cases hinf : FQ.INFINITY ≤ ((s2.processDepletions).1).built_until
  · simp only [if_pos hinf]
    exact h3
  · simp only [if_neg hinf]
    exact h3

theorem foldl_min_le_init : ∀ (l : List FQ) (a : FQ), List.foldl FQ.min a l ≤ a := by
  intro l
  induction l with
  | nil => intro a; exact le_refl a
  | cons x tl ih =>
    intro a
    show List.foldl FQ.min (FQ.min a x) tl ≤ a
    refine le_trans (ih (FQ.min a x)) ?_
    rw [FQ.min_eq_inf]
    exact inf_le_left

theorem foldl_min_le_mem : ∀ (l : List FQ) (a t : FQ), t ∈ l →
    List.foldl FQ.min a l ≤ t := by
  intro l
  induction l with
  | nil => intro a t ht; exact absurd ht (List.not_mem_nil t)
  | cons x tl ih =>
    intro a t ht
    rcases List.mem_cons.mp ht with rfl | ht'
    · refine le_trans (foldl_min_le_init tl (FQ.min a t)) ?_
      rw [FQ.min_eq_inf]
      exact inf_le_right
    · exact ih (FQ.min a x) t ht'

theorem foldl_min_mem_or : ∀ (l : List FQ) (a : FQ),
    List.foldl FQ.min a l = a ∨ List.foldl FQ.min a l ∈ l := by
  intro l
  induction l with
  | nil => intro a; exact Or.inl rfl
  | cons x tl ih =>
    intro a
    have hstep : List.foldl FQ.min a (x :: tl) = List.foldl FQ.min (FQ.min a x) tl := rfl
    rcases ih (FQ.min a x) with h | h
    · rcases min_choice a x with h' | h'
      · left
        rw [hstep, h, FQ.min_eq_inf, h']
      · right
        apply List.mem_cons.mpr
        left
        rw [hstep, h, FQ.min_eq_inf, h']
    · right
      exact List.mem_cons.mpr (Or.inr (hstep ▸ h))

theorem computeNewBuiltUntil_eq_foldl (s : DynamicFlow) (maxExt : Option FQ) :
    DynamicFlow.computeNewBuiltUntil s maxExt =
      (candidateTimes s maxExt).foldl FQ.min FQ.INFINITY := by
  rcases h1 : s.depletions.min_change_time with _ | t1 <;>
    rcases h2 : minTimeA s.outflow_changes with _ | t2 <;>
    rcases h3 : maxExt with _ | t3 <;>
      simp [DynamicFlow.computeNewBuiltUntil, candidateTimes, h1, h2, h3]

theorem computeNewBuiltUntil_spec (s : DynamicFlow) (maxExt : Option FQ) :
    (candidateTimes s maxExt = [] →
      DynamicFlow.computeNewBuiltUntil s maxExt = FQ.INFINITY) ∧
    (∀ t ∈ candidateTimes s maxExt,
      DynamicFlow.computeNewBuiltUntil s maxExt ≤ t) ∧
    (candidateTimes s maxExt ≠ [] →
      DynamicFlow.computeNewBuiltUntil s maxExt ∈ candidateTimes s maxExt) := by
  rw [computeNewBuiltUntil_eq_foldl]
  refine ⟨?_, ?_, ?_⟩
  · intro h
    rw [h]
    rfl
  · intro t ht
    exact foldl_min_le_mem _ _ t ht
  · intro hne
    rcases foldl_min_mem_or (candidateTimes s maxExt) FQ.INFINITY with h | h
    · cases hcl : candidateTimes s maxExt with
      | nil => exact absurd hcl hne
      | cons x tl =>
        have hx : List.foldl FQ.min FQ.INFINITY (candidateTimes s maxExt) ≤ x :=
          foldl_min_le_mem _ _ x (by rw [hcl]; exact List.mem_cons_self _ _)
        rw [h] at hx
        have hxe : x = FQ.INFINITY := le_antisymm (FQ.le_INFINITY x) hx
        rw [hcl] at h
        rw [h, ← hxe]
        exact List.mem_cons_self _ _
    · exact h

/-- C1: after all edges of `new_inflow` are processed, the new
`built_until` of `DynamicFlow::extend` is the minimum of the candidate
times (earliest `DepletionQueue` change time, earliest `outflow_changes`
time, and `max_extension_time` when present): it is a lower bound of the
candidates, attained by one of them when any exists, and equals `+∞` when
none exists. -/
theorem C1_built_until_is_min (s : DynamicFlow) (new_inflow : List (ℕ × Rates))
    (maxExt : Option FQ) (cap inv tt : ℕ → FQ) :
    (candidateTimes (s.afterEdges new_inflow cap inv tt) maxExt = [] →
      ((s.extend new_inflow maxExt cap inv tt).1).built_until = FQ.INFINITY) ∧
    (∀ t ∈ candidateTimes (s.afterEdges new_inflow cap inv tt) maxExt,
      ((s.extend new_inflow maxExt cap inv tt).1).built_until ≤ t) ∧
    (candidateTimes (s.afterEdges new_inflow cap inv tt) maxExt ≠ [] →
      ((s.extend new_inflow maxExt cap inv tt).1).built_until ∈
        candidateTimes (s.afterEdges new_inflow cap inv tt) maxExt) := by
  rw [extend_built_until_eq s new_inflow maxExt cap inv tt]
  exact computeNewBuiltUntil_spec (s.afterEdges new_inflow cap inv tt) maxExt

section ConcreteWitnesses

attribute [local semireducible] Rat.add Rat.mul Rat.inv Rat.sub

theorem C1_witness :
    candidateTimes (DynamicFlow.afterEdges DynamicFlow.new [(0, [(0, FQ.ONE)])]
      onesF onesF onesF) none ≠ [] ∧
    ((DynamicFlow.new.extend [(0, [(0, FQ.ONE)])] none onesF onesF onesF).1).built_until ∈
      candidateTimes (DynamicFlow.afterEdges DynamicFlow.new [(0, [(0, FQ.ONE)])]
        onesF onesF onesF) none :=
  ⟨by set_option maxRecDepth 100000 in decide,
    (C1_built_until_is_min DynamicFlow.new [(0, [(0, FQ.ONE)])] none onesF onesF
      onesF).2.2 (by set_option maxRecDepth 100000 in decide)⟩

end ConcreteWitnesses

theorem collectChangedLoop_spec :
    ∀ (fuel : ℕ) (q : List (ℕ × FQ)) (b : FQ) (acc : List ℕ), q.length ≤ fuel →
      (∀ e, e ∈ (DynamicFlow.collectChangedLoop fuel q b acc).1 ↔
        e ∈ acc ∨ ∃ t, (e, t) ∈ q ∧ t ≤ b) ∧
      (∀ e t, (e, t) ∈ (DynamicFlow.collectChangedLoop fuel q b acc).2 ↔
        ((e, t) ∈ q ∧ ¬ t ≤ b)) := by
  intro fuel
  induction fuel with
  | zero =>
    intro q b acc hlen
    have hq : q = [] := List.length_eq_zero.mp (Nat.le_zero.mp hlen)
    subst hq
    refine ⟨?_, ?_⟩
    · intro e
      simp [DynamicFlow.collectChangedLoop]
    · intro e t
      simp [DynamicFlow.collectChangedLoop]
  | succ fuel ih =>
    intro q b acc hlen
    cases hpop : popMinA q with
    | none =>
      have hq : q = [] := (popMinA_eq_none q).mp hpop
      subst hq
      have hred : DynamicFlow.collectChangedLoop (fuel + 1) [] b acc = (acc, []) := by
        rw [DynamicFlow.collectChangedLoop, hpop]
      rw [hred]
      refine ⟨?_, ?_⟩ <;> intro e <;> simp
    | some mr =>
      obtain ⟨⟨edge, time⟩, q'⟩ := mr
      have hred : DynamicFlow.collectChangedLoop (fuel + 1) q b acc =
          (if time ≤ b then DynamicFlow.collectChangedLoop fuel q' b (acc ++ [edge])
           else (acc, q)) := by
        rw [DynamicFlow.collectChangedLoop, hpop]
      rw [hred]
      have hmem : (edge, time) ∈ q := popMinA_mem q q' (edge, time) hpop
      have hsub : ∀ x ∈ q', x ∈ q := popMinA_rest_subset q q' (edge, time) hpop
      have hsplit : ∀ x ∈ q, x = (edge, time) ∨ x ∈ q' :=
        popMinA_mem_rest q q' (edge, time) hpop
      have hmin : ∀ p ∈ q, time ≤ p.2 := popMinA_min q q' (edge, time) hpop
      have hmem2 : (edge, time) ∈ q := hmem
      by_cases hle : time ≤ b
      · rw [if_pos hle]
        have hlen' : q'.length ≤ fuel := by
          have := popMinA_length q q' (edge, time) hpop
          omega
        obtain ⟨ih1, ih2⟩ := ih q' b (acc ++ [edge]) hlen'
        refine ⟨?_, ?_⟩
        · intro e
          rw [ih1 e]
          constructor
          · rintro (he | ⟨t, ht, htle⟩)
            · rcases List.mem_append.mp he with he | he
              · exact Or.inl he
              · rcases List.mem_singleton.mp he with rfl
                exact Or.inr ⟨time, hmem, hle⟩
            · exact Or.inr ⟨t, hsub (e, t) ht, htle⟩
          · rintro (he | ⟨t, ht, htle⟩)
            · exact Or.inl (List.mem_append.mpr (Or.inl he))
            · rcases hsplit (e, t) ht with heq | hmem'
              · obtain ⟨rfl, rfl⟩ := Prod.mk.injEq .. ▸ And.intro
                  (congrArg Prod.fst heq) (congrArg Prod.snd heq)
                exact Or.inl (List.mem_append.mpr (Or.inr (List.mem_singleton.mpr rfl)))
              · exact Or.inr ⟨t, hmem', htle⟩
        · intro e t
          rw [ih2 e t]
          constructor
          · rintro ⟨ht, htgt⟩
            exact ⟨hsub (e, t) ht, htgt⟩
          · rintro ⟨ht, htgt⟩
            rcases hsplit (e, t) ht with heq | hmem'
            · exfalso
              have : t = time := congrArg Prod.snd heq
              rw [this] at htgt
              exact htgt hle
            · exact ⟨hmem', htgt⟩
      · rw [if_neg hle]
        refine ⟨?_, ?_⟩
        · intro e
          constructor
          · intro he
            exact Or.inl he
          · rintro (he | ⟨t, ht, htle⟩)
            · exact he
            · exfalso
              exact hle (le_trans (hmin (e, t) ht) htle)
        · intro e t
          constructor
          · intro ht
            refine ⟨ht, ?_⟩
            intro htle
            exact hle (le_trans (hmin (e, t) ht) htle)
          · rintro ⟨ht, _⟩
            exact ht

/-- C2 (amended): whenever the newly computed `built_until` is finite,
`DynamicFlow::extend` returns exactly the set of edges having an entry in
`outflow_changes` (after depletion processing) with change time at most
the new `built_until`, and pops exactly those entries; when the new
`built_until` is `+∞` the call returns the empty set without popping
(see the counterexample for the divergence from the unamended claim). -/
theorem C2_amended_changed_edges (s : DynamicFlow) (new_inflow : List (ℕ × Rates))
    (maxExt : Option FQ) (cap inv tt : ℕ → FQ)
    (hfin : ((s.extend new_inflow maxExt cap inv tt).1).built_until < FQ.INFINITY) :
    (∀ e, e ∈ (s.extend new_inflow maxExt cap inv tt).2.1 ↔
      ∃ t, (e, t) ∈ (s.afterDepletions new_inflow maxExt cap inv tt).outflow_changes ∧
        t ≤ ((s.extend new_inflow maxExt cap inv tt).1).built_until) ∧
    (∀ e t, (e, t) ∈ ((s.extend new_inflow maxExt cap inv tt).1).outflow_changes ↔
      ((e, t) ∈ (s.afterDepletions new_inflow maxExt cap inv tt).outflow_changes ∧
        ¬ t ≤ ((s.extend new_inflow maxExt cap inv tt).1).built_until)) := by
  have h3b : (s.afterDepletions new_inflow maxExt cap inv tt).built_until =
      DynamicFlow.computeNewBuiltUntil (s.afterEdges new_inflow cap inv tt) maxExt :=
    processDepletions_built_until _
  have hnotinf : ¬ FQ.INFINITY ≤
      (s.afterDepletions new_inflow maxExt cap inv tt).built_until := by
    rw [h3b, ← extend_built_until_eq s new_inflow maxExt cap inv tt]
    exact not_le.mpr hfin
  set s3 := s.afterDepletions new_inflow maxExt cap inv tt with hs3
  set cc := DynamicFlow.collectChangedLoop s3.outflow_changes.length
    s3.outflow_changes s3.built_until [] with hcc
  set lg := (s.processNewInflow new_inflow cap inv tt).2 ++
      (DynamicFlow.processDepletions
        { s.afterEdges new_inflow cap inv tt with
          built_until := DynamicFlow.computeNewBuiltUntil
            (s.afterEdges new_inflow cap inv tt) maxExt }).2 with hlg
  have hkey : s.extend new_inflow maxExt cap inv tt =
      if FQ.INFINITY ≤ s3.built_until then (s3, [], lg)
      else ({ s3 with outflow_changes := cc.2 }, cc.1, lg) := rfl
  rw [hkey, if_neg hnotinf]
  obtain ⟨hp1, hp2⟩ := collectChangedLoop_spec s3.outflow_changes.length
    s3.outflow_changes s3.built_until [] (le_refl _)
  refine ⟨?_, ?_⟩
  · intro e
    show e ∈ cc.1 ↔ ∃ t, (e, t) ∈ s3.outflow_changes ∧ t ≤ s3.built_until
    rw [hp1 e]
    simp
  · intro e t
    show (e, t) ∈ cc.2 ↔ ((e, t) ∈ s3.outflow_changes ∧ ¬ t ≤ s3.built_until)
    exact hp2 e t

section ConcreteWitnessesB

attribute [local semireducible] Rat.add Rat.mul Rat.inv Rat.sub

theorem C2_amended_witness :
    0 ∈ (DynamicFlow.new.extend [(0, [(0, FQ.ONE)])] none onesF onesF onesF).2.1 :=
  ((C2_amended_changed_edges DynamicFlow.new [(0, [(0, FQ.ONE)])] none onesF onesF
      onesF (by set_option maxRecDepth 100000 in decide)).1 0).mpr
    ⟨FQ.fin 1, by set_option maxRecDepth 100000 in decide,
      by set_option maxRecDepth 100000 in decide⟩

end ConcreteWitnessesB

theorem lookupA_mem {κ α : Type} [DecidableEq κ] :
    ∀ (l : List (κ × α)) (k : κ) (v : α), lookupA l k = some v → (k, v) ∈ l := by
  intro l
  induction l with
  | nil => intro k v h; exact absurd h (by simp [lookupA])
  | cons p rest ih =>
    intro k v h
    by_cases hp : p.1 = k
    · simp only [lookupA, if_pos hp] at h
      injection h with h2
      exact List.mem_cons.mpr (Or.inl (Prod.ext hp.symm h2.symm))
    · simp only [lookupA, if_neg hp] at h
      exact List.mem_cons_of_mem _ (ih k v h)

theorem mem_upsertA_cases {κ α : Type} [DecidableEq κ] :
    ∀ (l : List (κ × α)) (k : κ) (v : α) (x : κ × α),
      x ∈ upsertA l k v → x ∈ l ∨ x = (k, v) := by
  intro l
  induction l with
  | nil =>
    intro k v x hx
    simp only [upsertA, List.mem_singleton] at hx
    exact Or.inr hx
  | cons p rest ih =>
    intro k v x hx
    by_cases hp : p.1 = k
    · simp only [upsertA, if_pos hp, List.mem_cons] at hx
      rcases hx with rfl | hx
      · exact Or.inr rfl
      · exact Or.inl (List.mem_cons_of_mem _ hx)
    · simp only [upsertA, if_neg hp, List.mem_cons] at hx
      rcases hx with rfl | hx
      · exact Or.inl (List.mem_cons_self _ _)
      · rcases ih k v x hx with h | h
        · exact Or.inl (List.mem_cons_of_mem _ h)
        · exact Or.inr h

theorem mem_eraseA_subset {κ α : Type} [DecidableEq κ] :
    ∀ (l : List (κ × α)) (k : κ) (x : κ × α), x ∈ eraseA l k → x ∈ l := by
  intro l
  induction l with
  | nil => intro k x hx; exact hx
  | cons p rest ih =>
    intro k x hx
    by_cases hp : p.1 = k
    · simp only [eraseA, if_pos hp] at hx
      exact List.mem_cons_of_mem _ hx
    · simp only [eraseA, if_neg hp, List.mem_cons] at hx
      rcases hx with rfl | hx
      · exact List.mem_cons_self _ _
      · exact List.mem_cons_of_mem _ (ih k x hx)

theorem remove_new_outflow_subset (q : DepletionQueue) (e : ℕ) :
    ∀ x ∈ (q.remove e).new_outflow, x ∈ q.new_outflow := by
  intro x hx
  exact mem_eraseA_subset _ _ _ hx

theorem set_none_new_outflow_subset (q : DepletionQueue) (e : ℕ) (t : FQ) :
    ∀ x ∈ (q.set e t none).new_outflow, x ∈ q.new_outflow := by
  intro x hx
  by_cases hs : (lookupA q.change_times_after_a_depletion e).isSome
  · simp only [DepletionQueue.set, if_pos hs] at hx
    exact mem_eraseA_subset _ _ _ hx
  · simp only [DepletionQueue.set, if_neg hs] at hx
    exact hx

theorem set_some_new_outflow_cases (q : DepletionQueue) (e : ℕ) (t : FQ)
    (ev : ChangeEvent) :
    ∀ x ∈ (q.set e t (some ev)).new_outflow,
      x ∈ q.new_outflow ∨ x = (e, ev.value) := by
  intro x hx
  exact mem_upsertA_cases _ _ _ _ hx

theorem pop_new_outflow_subset (q : DepletionQueue) :
    ∀ x ∈ ((q.pop_by_depletion).2).new_outflow, x ∈ q.new_outflow := by
  intro x hx
  cases hpop : popMinA q.depletions with
  | none =>
    simp only [DepletionQueue.pop_by_depletion, hpop] at hx
    exact hx
  | some mr =>
    obtain ⟨⟨edge, dt⟩, deps'⟩ := mr
    cases hct : lookupA q.change_times_after_a_depletion edge with
    | none =>
      simp only [DepletionQueue.pop_by_depletion, hpop, hct] at hx
      exact hx
    | some ct =>
      cases hno : lookupA q.new_outflow edge with
      | none =>
        simp only [DepletionQueue.pop_by_depletion, hpop, hct, hno] at hx
        exact mem_eraseA_subset _ _ _ hx
      | some v =>
        simp only [DepletionQueue.pop_by_depletion, hpop, hct, hno] at hx
        exact mem_eraseA_subset _ _ _ hx

theorem pop_event_value_mem (q : DepletionQueue) (e : ℕ) (t : FQ) (ev : ChangeEvent)
    (h : (q.pop_by_depletion).1 = .popped e t (some ev)) :
    (e, ev.value) ∈ q.new_outflow := by
  cases hpop : popMinA q.depletions with
  | none =>
    simp only [DepletionQueue.pop_by_depletion, hpop] at h
    exact absurd h (by simp)
  | some mr =>
    obtain ⟨⟨edge, dt⟩, deps'⟩ := mr
    cases hct : lookupA q.change_times_after_a_depletion edge with
    | none =>
      simp only [DepletionQueue.pop_by_depletion, hpop, hct,
        DepletionQueue.DQPop.popped.injEq] at h
      exact absurd h.2.2 (by simp)
    | some ct =>
      cases hno : lookupA q.new_outflow edge with
      | none =>
        simp only [DepletionQueue.pop_by_depletion, hpop, hct, hno] at h
        exact absurd h (by simp)
      | some v =>
        simp only [DepletionQueue.pop_by_depletion, hpop, hct, hno,
          DepletionQueue.DQPop.popped.injEq] at h
        obtain ⟨rfl, -, hev⟩ := h
        injection hev with hev2
        rw [← hev2]
        exact lookupA_mem _ _ _ hno

theorem FQ_min_le_left (a b : FQ) : FQ.min a b ≤ a := by
  rw [FQ.min_eq_inf]
  exact inf_le_left

theorem extendCaseI_bound (capacity : ℕ → FQ) (s : DynamicFlow) (edge : ℕ)
    (cq inv_e tt_e : FQ) (hs : PendingSumsBounded capacity s)
    (hcap : FQ.ZERO ≤ capacity edge) :
    PendingSumsBounded capacity
      (DynamicFlow.extendCaseI s edge cq (capacity edge) inv_e tt_e).1 ∧
    ∀ p ∈ (DynamicFlow.extendCaseI s edge cq (capacity edge) inv_e tt_e).2,
      p.2 ≤ capacity p.1 + FQ.TOL := by
  by_cases hcq : cq = FQ.ZERO
  · constructor
    · intro p hp
      simp only [DynamicFlow.extendCaseI, if_pos hcq] at hp
      exact hs p (remove_new_outflow_subset _ _ p hp)
    · intro p hp
      simp only [DynamicFlow.extendCaseI, if_pos hcq, List.mem_singleton] at hp
      subst hp
      exact FQ.ZERO_le_add_TOL_of_nonneg _ hcap
  · constructor
    · intro p hp
      simp only [DynamicFlow.extendCaseI, if_neg hcq] at hp
      exact hs p (set_none_new_outflow_subset _ _ _ p hp)
    · intro p hp
      simp only [DynamicFlow.extendCaseI, if_neg hcq, List.mem_singleton] at hp
      subst hp
      exact FQ.ZERO_le_add_TOL_of_nonneg _ hcap

theorem extendCaseII_bound (capacity : ℕ → FQ) (s : DynamicFlow) (edge : ℕ)
    (m : Rates) (cq acc_in inv_e tt_e : FQ) (hs : PendingSumsBounded capacity s)
    (hcap : FQ.ZERO ≤ capacity edge) :
    PendingSumsBounded capacity
      (DynamicFlow.extendCaseII s edge m cq acc_in (capacity edge) inv_e tt_e).1 ∧
    ∀ p ∈ (DynamicFlow.extendCaseII s edge m cq acc_in (capacity edge) inv_e tt_e).2,
      p.2 ≤ capacity p.1 + FQ.TOL := by
  constructor
  · intro p hp
    simp only [DynamicFlow.extendCaseII] at hp
    exact hs p (remove_new_outflow_subset _ _ p hp)
  · intro p hp
    simp only [DynamicFlow.extendCaseII, List.mem_singleton] at hp
    subst hp
    exact le_trans (FQ_min_le_left _ _) (FQ.le_add_TOL_of_nonneg _ hcap)

theorem extendCaseIII_bound (capacity : ℕ → FQ) (s : DynamicFlow) (edge : ℕ)
    (m : Rates) (cq acc_in inv_e tt_e : FQ) (hs : PendingSumsBounded capacity s)
    (hcap : FQ.ZERO ≤ capacity edge)
    (hacc : acc_in ≤ capacity edge + FQ.TOL) :
    PendingSumsBounded capacity
      (DynamicFlow.extendCaseIII s edge m cq acc_in (capacity edge) inv_e tt_e).1 ∧
    ∀ p ∈ (DynamicFlow.extendCaseIII s edge m cq acc_in (capacity edge) inv_e tt_e).2,
      p.2 ≤ capacity p.1 + FQ.TOL := by
  constructor
  · intro p hp
    simp only [DynamicFlow.extendCaseIII] at hp
    rcases set_some_new_outflow_cases _ _ _ _ p hp with h | h
    · exact hs p h
    · rw [h]
      exact hacc
  · intro p hp
    simp only [DynamicFlow.extendCaseIII, List.mem_singleton] at hp
    subst hp
    exact FQ.le_add_TOL_of_nonneg _ hcap

theorem processEdge_bound (capacity inv_capacity travel_time : ℕ → FQ)
    (hcap : ∀ e, FQ.ZERO ≤ capacity e) (s : DynamicFlow)
    (hs : PendingSumsBounded capacity s) (edge : ℕ) (m : Rates) :
    PendingSumsBounded capacity
      (DynamicFlow.processEdge capacity inv_capacity travel_time s edge m).1 ∧
    ∀ p ∈ (DynamicFlow.processEdge capacity inv_capacity travel_time s edge m).2,
      p.2 ≤ capacity p.1 + FQ.TOL := by
  unfold DynamicFlow.processEdge
  set gv := (s.inflow edge).get_values_at_time s.built_until with hgv
  set s0 : DynamicFlow := { s with inflow := updFn s.inflow edge gv.2 } with hs0
  have hs0p : PendingSumsBounded capacity s0 := hs
  set current : Rates := (match gv.1 with
    | .okRes m => m
    | _ => []) with hcur
  by_cases heq : ratesEqB current m = true
  · rw [if_pos heq]
    exact ⟨hs0p, by intro p hp; exact absurd hp (List.not_mem_nil p)⟩
  · rw [if_neg heq]
    set acc_in := sumRates m with hacc
    set s1 : DynamicFlow := { s0 with
      inflow := updFn s0.inflow edge
        ((s0.inflow edge).extend s0.built_until m acc_in) } with hs1
    have hs1p : PendingSumsBounded capacity s1 := hs0p
    by_cases hz : acc_in = FQ.ZERO
    · rw [if_pos hz]
      exact extendCaseI_bound capacity s1 edge _ _ _ hs1p (hcap edge)
    · rw [if_neg hz]
      by_cases hcase2 : (FQ.max ((s1.queues edge).eval s1.built_until) FQ.ZERO)
          = FQ.ZERO ∨ capacity edge - FQ.TOL ≤ acc_in
      · rw [if_pos hcase2]
        exact extendCaseII_bound capacity s1 edge m _ _ _ _ hs1p (hcap edge)
      · rw [if_neg hcase2]
        push_neg at hcase2
        have hlt : acc_in < capacity edge - FQ.TOL := hcase2.2
        have hacc2 : acc_in ≤ capacity edge + FQ.TOL :=
          le_trans (le_of_lt hlt) (FQ.sub_TOL_le_add_TOL_of_nonneg _ (hcap edge))
        exact extendCaseIII_bound capacity s1 edge m _ _ _ _ hs1p (hcap edge) hacc2

theorem processNewInflow_fold_bound (capacity inv_capacity travel_time : ℕ → FQ)
    (hcap : ∀ e, FQ.ZERO ≤ capacity e) :
    ∀ (l : List (ℕ × Rates)) (acc : DynamicFlow × OutflowLog),
      PendingSumsBounded capacity acc.1 →
      (∀ p ∈ acc.2, p.2 ≤ capacity p.1 + FQ.TOL) →
      PendingSumsBounded capacity
        (l.foldl (fun acc p =>
          let r := DynamicFlow.processEdge capacity inv_capacity travel_time
            acc.1 p.1 p.2
          (r.1, acc.2 ++ r.2)) acc).1 ∧
      ∀ p ∈ (l.foldl (fun acc p =>
          let r := DynamicFlow.processEdge capacity inv_capacity travel_time
            acc.1 p.1 p.2
          (r.1, acc.2 ++ r.2)) acc).2, p.2 ≤ capacity p.1 + FQ.TOL := by
  intro l
  induction l with
  | nil => intro acc h1 h2; exact ⟨h1, h2⟩
  | cons x tl ih =>
    intro acc h1 h2
    obtain ⟨hp1, hp2⟩ := processEdge_bound capacity inv_capacity travel_time hcap
      acc.1 h1 x.1 x.2
    apply ih
    · exact hp1
    · intro p hp
      rcases List.mem_append.mp hp with h | h
      · exact h2 p h
      · exact hp2 p h

theorem processNewInflow_bound (capacity inv_capacity travel_time : ℕ → FQ)
    (hcap : ∀ e, FQ.ZERO ≤ capacity e) (s : DynamicFlow)
    (hs : PendingSumsBounded capacity s) (new_inflow : List (ℕ × Rates)) :
    PendingSumsBounded capacity
      (s.processNewInflow new_inflow capacity inv_capacity travel_time).1 ∧
    ∀ p ∈ (s.processNewInflow new_inflow capacity inv_capacity travel_time).2,
      p.2 ≤ capacity p.1 + FQ.TOL := by
  exact processNewInflow_fold_bound capacity inv_capacity travel_time hcap
    new_inflow (s, []) hs (by intro p hp; exact absurd hp (List.not_mem_nil p))

theorem processDepletionsLoop_bound (capacity : ℕ → FQ) :
    ∀ (fuel : ℕ) (s : DynamicFlow) (log : OutflowLog),
      PendingSumsBounded capacity s →
      (∀ p ∈ log, p.2 ≤ capacity p.1 + FQ.TOL) →
      PendingSumsBounded capacity (DynamicFlow.processDepletionsLoop fuel s log).1 ∧
      ∀ p ∈ (DynamicFlow.processDepletionsLoop fuel s log).2,
        p.2 ≤ capacity p.1 + FQ.TOL := by
  intro fuel
  induction fuel with
  | zero => intro s log h1 h2; exact ⟨h1, h2⟩
  | succ fuel ih =>
    intro s log h1 h2
    cases hmin : s.depletions.min_depletion_time with
    | none =>
      simp only [DynamicFlow.processDepletionsLoop, hmin]
      exact ⟨h1, h2⟩
    | some t =>
      by_cases hle : t ≤ s.built_until
      · cases hpop : s.depletions.pop_by_depletion with
        | mk res dq' =>
          have hsub : ∀ x ∈ dq'.new_outflow, x ∈ s.depletions.new_outflow := by
            intro x hx
            have hmemx := pop_new_outflow_subset s.depletions x
            rw [hpop] at hmemx
            exact hmemx hx
          cases res with
          | empty =>
            simp only [DynamicFlow.processDepletionsLoop, hmin, if_pos hle, hpop]
            refine ⟨?_, h2⟩
            intro p hp
            exact h1 p (hsub p hp)
          | panicked =>
            simp only [DynamicFlow.processDepletionsLoop, hmin, if_pos hle, hpop]
            refine ⟨?_, h2⟩
            intro p hp
            exact h1 p (hsub p hp)
          | popped edge depl_time change_event =>
            cases change_event with
            | none =>
              simp only [DynamicFlow.processDepletionsLoop, hmin, if_pos hle, hpop]
              apply ih
              · intro p hp
                exact h1 p (hsub p hp)
              · exact h2
            | some ev =>
              have hmem : (edge, ev.value) ∈ s.depletions.new_outflow := by
                apply pop_event_value_mem s.depletions edge depl_time ev
                rw [hpop]
              simp only [DynamicFlow.processDepletionsLoop, hmin, if_pos hle, hpop]
              apply ih
              · intro p hp
                exact h1 p (hsub p hp)
              · intro p hp
                rcases List.mem_append.mp hp with h | h
                · exact h2 p h
                · rcases List.mem_singleton.mp h with rfl
                  exact h1 (edge, ev.value) hmem
      · simp only [DynamicFlow.processDepletionsLoop, hmin, if_neg hle]
        exact ⟨h1, h2⟩

theorem processDepletions_bound (capacity : ℕ → FQ) (s : DynamicFlow)
    (hs : PendingSumsBounded capacity s) :
    PendingSumsBounded capacity (s.processDepletions).1 ∧
    ∀ p ∈ (s.processDepletions).2, p.2 ≤ capacity p.1 + FQ.TOL := by
  unfold DynamicFlow.processDepletions
  by_cases h : FQ.INFINITY ≤ s.built_until
  · rw [if_pos h]
    exact ⟨hs, by intro p hp; exact absurd hp (List.not_mem_nil p)⟩
  · rw [if_neg h]
    exact processDepletionsLoop_bound capacity _ s [] hs
      (by intro p hp; exact absurd hp (List.not_mem_nil p))

theorem extend_bound (capacity inv_capacity travel_time : ℕ → FQ)
    (hcap : ∀ e, FQ.ZERO ≤ capacity e) (s : DynamicFlow)
    (hs : PendingSumsBounded capacity s) (new_inflow : List (ℕ × Rates))
    (maxExt : Option FQ) :
    PendingSumsBounded capacity
      ((s.extend new_inflow maxExt capacity inv_capacity travel_time).1) ∧
    ∀ p ∈ (s.extend new_inflow maxExt capacity inv_capacity travel_time).2.2,
      p.2 ≤ capacity p.1 + FQ.TOL := by
  obtain ⟨h1, h2⟩ := processNewInflow_bound capacity inv_capacity travel_time hcap
    s hs new_inflow
  set s1 := (s.processNewInflow new_inflow capacity inv_capacity travel_time).1
    with hs1
  set b := DynamicFlow.computeNewBuiltUntil s1 maxExt with hb
  set s2 : DynamicFlow := { s1 with built_until := b } with hs2
  have h1' : PendingSumsBounded capacity s2 := h1
  obtain ⟨h3, h4⟩ := processDepletions_bound capacity s2 h1'
  set s3 := (s2.processDepletions).1 with hs3
  set cc := DynamicFlow.collectChangedLoop s3.outflow_changes.length
    s3.outflow_changes s3.built_until [] with hcc
  set lg := (s.processNewInflow new_inflow capacity inv_capacity travel_time).2 ++
    (s2.processDepletions).2 with hlg
  have hlgb : ∀ p ∈ lg, p.2 ≤ capacity p.1 + FQ.TOL := by
    intro p hp
    rcases List.mem_append.mp hp with h | h
    · exact h2 p h
    · exact h4 p h
  have hkey : s.extend new_inflow maxExt capacity inv_capacity travel_time =
      if FQ.INFINITY ≤ s3.built_until then (s3, [], lg)
      else ({ s3 with outflow_changes := cc.2 }, cc.1, lg) := rfl
  rw [hkey]
  by_cases hinf : FQ.INFINITY ≤ s3.built_until
  · rw [if_pos hinf]
    exact ⟨h3, hlgb⟩
  · rw [if_neg hinf]
    exact ⟨h3, hlgb⟩

/-- C5 (amended): for every sequence of `extend` calls over a fixed
nonnegative capacity vector, every value passed as the sum when extending
an edge's outflow collection (recorded in the ghost log) is at most
`capacity[e] + TOL`; the per-commodity eval-sum formulation refuted by the
counterexample is strictly stronger. -/
theorem C5_amended_outflow_sums_bounded (capacity inv_capacity travel_time : ℕ → FQ)
    (hcap : ∀ e, FQ.ZERO ≤ capacity e)
    (calls : List (List (ℕ × Rates) × Option FQ)) :
    ∀ p ∈ (runExtends capacity inv_capacity travel_time calls).2,
      p.2 ≤ capacity p.1 + FQ.TOL := by
  suffices h : ∀ (cs : List (List (ℕ × Rates) × Option FQ))
      (acc : DynamicFlow × OutflowLog),
      PendingSumsBounded capacity acc.1 →
      (∀ p ∈ acc.2, p.2 ≤ capacity p.1 + FQ.TOL) →
      ∀ p ∈ (cs.foldl (fun acc call =>
          let r := acc.1.extend call.1 call.2 capacity inv_capacity travel_time
          (r.1, acc.2 ++ r.2.2)) acc).2, p.2 ≤ capacity p.1 + FQ.TOL by
    apply h calls (DynamicFlow.new, [])
    · intro p hp
      exact absurd hp (List.not_mem_nil p)
    · intro p hp
      exact absurd hp (List.not_mem_nil p)
  intro cs
  induction cs with
  | nil => intro acc h1 h2; exact h2
  | cons call tl ih =>
    intro acc h1 h2
    obtain ⟨he1, he2⟩ := extend_bound capacity inv_capacity travel_time hcap
      acc.1 h1 call.1 call.2
    apply ih
    · exact he1
    · intro p hp
      rcases List.mem_append.mp hp with h | h
      · exact h2 p h
      · exact he2 p h

section ConcreteWitnessesC

attribute [local semireducible] Rat.add Rat.mul Rat.inv Rat.sub

theorem C5_amended_witness : FQ.ONE ≤ onesF 0 + FQ.TOL :=
  C5_amended_outflow_sums_bounded onesF onesF onesF
    (fun e => show FQ.ZERO ≤ FQ.ONE by decide)
    [([(0, [(0, FQ.fin 2)])], none)] (0, FQ.ONE)
    (by set_option maxRecDepth 100000 in decide)

end ConcreteWitnessesC

theorem getLast?_cons_of_ne_nil {α : Type} (x : α) (l : List α) (h : l ≠ []) :
    (x :: l).getLast? = l.getLast? := by
  cases l with
  | nil => exact absurd rfl h
  | cons y tl => rfl

theorem pushPathPoints_lookup_self :
    ∀ (pts : List Pt) (q : List ((ℕ × FQ) × FQ)) (i : ℕ) (v : FQ),
      lookupA (pushPathPoints q i pts) (i, v) =
        match (pts.filter (fun p => decide (p.y = v))).getLast? with
        | some p => some p.x
        | none => lookupA q (i, v) := by
  intro pts
  induction pts with
  | nil => intro q i v; rfl
  | cons p tl ih =>
    intro q i v
    have hstep : pushPathPoints q i (p :: tl) =
        pushPathPoints (upsertA q (i, p.y) p.x) i tl := rfl
    rw [hstep, ih]
    by_cases hpy : p.y = v
    · cases hfl : (tl.filter (fun p => decide (p.y = v))).getLast? with
      | some last =>
        have hne : tl.filter (fun p => decide (p.y = v)) ≠ [] := by
          intro hnil
          rw [hnil] at hfl
          exact absurd hfl (by simp)
        rw [show (p :: tl).filter (fun p => decide (p.y = v)) =
            p :: tl.filter (fun p => decide (p.y = v)) by simp [List.filter, hpy]]
        rw [getLast?_cons_of_ne_nil _ _ hne, hfl]
      | none =>
        rw [show (p :: tl).filter (fun p => decide (p.y = v)) =
            p :: tl.filter (fun p => decide (p.y = v)) by simp [List.filter, hpy]]
        have hfl2 : tl.filter (fun p => decide (p.y = v)) = [] := by
          cases hc : tl.filter (fun p => decide (p.y = v)) with
          | nil => rfl
          | cons a b =>
            rw [hc] at hfl
            exact absurd hfl (by simp [List.getLast?])
        rw [hfl2]
        show lookupA (upsertA q (i, p.y) p.x) (i, v) = some p.x
        rw [hpy]
        exact lookupA_upsertA_self q (i, v) p.x
    · rw [show (p :: tl).filter (fun p => decide (p.y = v)) =
          tl.filter (fun p => decide (p.y = v)) by simp [List.filter, hpy]]
      cases hfl : (tl.filter (fun p => decide (p.y = v))).getLast? with
      | some last => rfl
      | none =>
        show lookupA (upsertA q (i, p.y) p.x) (i, v) = lookupA q (i, v)
        apply lookupA_upsertA_ne
        intro hc
        apply hpy
        have := congrArg Prod.snd hc
        exact this.symm
  
theorem pushPathPoints_lookup_other :
    ∀ (pts : List Pt) (q : List ((ℕ × FQ) × FQ)) (j i : ℕ) (v : FQ), j ≠ i →
      lookupA (pushPathPoints q j pts) (i, v) = lookupA q (i, v) := by
  intro pts
  induction pts with
  | nil => intro q j i v _; rfl
  | cons p tl ih =>
    intro q j i v hji
    have hstep : pushPathPoints q j (p :: tl) =
        pushPathPoints (upsertA q (j, p.y) p.x) j tl := rfl
    rw [hstep, ih _ _ _ _ hji]
    apply lookupA_upsertA_ne
    intro hc
    exact hji (congrArg Prod.fst hc).symm

theorem enumFold_preserve :
    ∀ (inflows : List PiecewiseConstant) (m : ℕ) (q : List ((ℕ × FQ) × FQ))
      (i : ℕ) (v : FQ), i < m →
      lookupA ((List.enumFrom m inflows).foldl
        (fun q ip => pushPathPoints q ip.1 ip.2.points) q) (i, v) =
        lookupA q (i, v) := by
  intro inflows
  induction inflows with
  | nil => intro m q i v _; rfl
  | cons f tl ih =>
    intro m q i v him
    have hstep : (List.enumFrom m (f :: tl)).foldl
        (fun q ip => pushPathPoints q ip.1 ip.2.points) q =
        (List.enumFrom (m + 1) tl).foldl
          (fun q ip => pushPathPoints q ip.1 ip.2.points)
          (pushPathPoints q m f.points) := rfl
    rw [hstep, ih (m + 1) _ i v (Nat.lt_succ_of_lt him)]
    exact pushPathPoints_lookup_other f.points q m i v (Nat.ne_of_gt him)

theorem enumFold_lookup :
    ∀ (inflows : List PiecewiseConstant) (n : ℕ) (q : List ((ℕ × FQ) × FQ))
      (i : ℕ) (v : FQ), n ≤ i →
      lookupA ((List.enumFrom n inflows).foldl
        (fun q ip => pushPathPoints q ip.1 ip.2.points) q) (i, v) =
        match inflows.get? (i - n) with
        | some f =>
          match (f.points.filter (fun p => decide (p.y = v))).getLast? with
          | some p => some p.x
          | none => lookupA q (i, v)
        | none => lookupA q (i, v) := by
  intro inflows
  induction inflows with
  | nil =>
    intro n q i v _
    simp [List.enumFrom, List.get?]
  | cons f tl ih =>
    intro n q i v hni
    have hstep : (List.enumFrom n (f :: tl)).foldl
        (fun q ip => pushPathPoints q ip.1 ip.2.points) q =
        (List.enumFrom (n + 1) tl).foldl
          (fun q ip => pushPathPoints q ip.1 ip.2.points)
          (pushPathPoints q n f.points) := rfl
    rw [hstep]
    rcases Nat.eq_or_lt_of_le hni with rfl | hlt
    · rw [enumFold_preserve tl (n + 1) _ n v (Nat.lt_succ_self n)]
      rw [pushPathPoints_lookup_self f.points q n v]
      simp only [Nat.sub_self, List.get?]
    · have hn1 : n + 1 ≤ i := hlt
      rw [ih (n + 1) _ i v hn1]
      have hidx : (f :: tl).get? (i - n) = tl.get? (i - (n + 1)) := by
        have h1 : i - n = (i - (n + 1)) + 1 := by omega
        rw [h1]
        rfl
      rw [hidx]
      cases hg : tl.get? (i - (n + 1)) with
      | none =>
        show lookupA (pushPathPoints q n f.points) (i, v) = lookupA q (i, v)
        exact pushPathPoints_lookup_other f.points q n i v (by omega)
      | some g =>
        show (match (g.points.filter (fun p => decide (p.y = v))).getLast? with
          | some p => some p.x
          | none => lookupA (pushPathPoints q n f.points) (i, v)) =
          (match (g.points.filter (fun p => decide (p.y = v))).getLast? with
          | some p => some p.x
          | none => lookupA q (i, v))
        cases hgl : (g.points.filter (fun p => decide (p.y = v))).getLast? with
        | none => exact pushPathPoints_lookup_other f.points q n i v (by omega)
        | some p => rfl

theorem lookupA_isSome_of_mem_keys {κ α : Type} [DecidableEq κ] :
    ∀ (l : List (κ × α)) (k : κ), k ∈ l.map Prod.fst → (lookupA l k).isSome := by
  intro l
  induction l with
  | nil => intro k h; exact absurd h (by simp)
  | cons p rest ih =>
    intro k h
    by_cases hp : p.1 = k
    · simp [lookupA, hp]
    · simp only [List.map_cons, List.mem_cons] at h
      rcases h with h | h
      · exact absurd h.symm hp
      · simp only [lookupA, if_neg hp]
        exact ih k h

theorem pushPathPoints_keysND :
    ∀ (pts : List Pt) (q : List ((ℕ × FQ) × FQ)) (i : ℕ),
      keysND q → keysND (pushPathPoints q i pts) := by
  intro pts
  induction pts with
  | nil => intro q i h; exact h
  | cons p tl ih =>
    intro q i h
    exact ih _ i (keysND_upsertA q (i, p.y) p.x h)

theorem enumFold_keysND :
    ∀ (inflows : List PiecewiseConstant) (n : ℕ) (q : List ((ℕ × FQ) × FQ)),
      keysND q →
      keysND ((List.enumFrom n inflows).foldl
        (fun q ip => pushPathPoints q ip.1 ip.2.points) q) := by
  intro inflows
  induction inflows with
  | nil => intro n q h; exact h
  | cons f tl ih =>
    intro n q h
    exact ih (n + 1) _ (pushPathPoints_keysND f.points q n h)

theorem pathInflowRateChanges_keysND (path_inflows : List PiecewiseConstant) :
    keysND (pathInflowRateChanges path_inflows) :=
  enumFold_keysND path_inflows 0 [] (by simp [keysND])

theorem pathInflowRateChanges_lookup (path_inflows : List PiecewiseConstant)
    (i : ℕ) (v : FQ) :
    lookupA (pathInflowRateChanges path_inflows) (i, v) =
      match path_inflows.get? i with
      | some f =>
        ((f.points.filter (fun p => decide (p.y = v))).getLast?).map Pt.x
      | none => none := by
  have h := enumFold_lookup path_inflows 0 [] i v (Nat.zero_le i)
  rw [show i - 0 = i from rfl] at h
  rw [show pathInflowRateChanges path_inflows =
    (List.enumFrom 0 path_inflows).foldl
      (fun q ip => pushPathPoints q ip.1 ip.2.points) [] from rfl]
  rw [h]
  cases path_inflows.get? i with
  | none => rfl
  | some f =>
    show (match (f.points.filter (fun p => decide (p.y = v))).getLast? with
      | some p => some p.x
      | none => lookupA ([] : List ((ℕ × FQ) × FQ)) (i, v)) =
      ((f.points.filter (fun p => decide (p.y = v))).getLast?).map Pt.x
    cases (f.points.filter (fun p => decide (p.y = v))).getLast? with
    | none => rfl
    | some p => rfl

theorem mem_of_getLast?_eq_some {α : Type} (l : List α) (a : α)
    (h : l.getLast? = some a) : a ∈ l := by
  have ha : a ∈ l.getLast? := by
    rw [h]
    rfl
  obtain ⟨hne, heq⟩ := List.mem_getLast?_eq_getLast ha
  rw [heq]
  exact List.getLast_mem hne

theorem pathInflowRateChanges_mem_keys (path_inflows : List PiecewiseConstant)
    (i : ℕ) (v : FQ) :
    (i, v) ∈ (pathInflowRateChanges path_inflows).map Prod.fst ↔
      ∃ f, path_inflows.get? i = some f ∧ v ∈ f.points.map Pt.y := by
  constructor
  · intro h
    have hsome := lookupA_isSome_of_mem_keys _ _ h
    rw [pathInflowRateChanges_lookup path_inflows i v] at hsome
    cases hf : path_inflows.get? i with
    | none => rw [hf] at hsome; simp at hsome
    | some f =>
      rw [hf] at hsome
      have hsome2 : (((f.points.filter (fun p => decide (p.y = v))).getLast?).map
          Pt.x).isSome := hsome
      refine ⟨f, rfl, ?_⟩
      cases hgl : (f.points.filter (fun p => decide (p.y = v))).getLast? with
      | none => rw [hgl] at hsome2; simp at hsome2
      | some p =>
        have hp : p ∈ f.points.filter (fun p => decide (p.y = v)) :=
          mem_of_getLast?_eq_some _ _ hgl
        rw [List.mem_filter] at hp
        have hpy : p.y = v := of_decide_eq_true hp.2
        rw [← hpy]
        exact List.mem_map_of_mem Pt.y hp.1
  · rintro ⟨f, hf, hv⟩
    apply mem_keys_of_lookupA_isSome
    rw [pathInflowRateChanges_lookup path_inflows i v, hf]
    show (((f.points.filter (fun p => decide (p.y = v))).getLast?).map Pt.x).isSome
    obtain ⟨p, hp, hpy⟩ := List.mem_map.mp hv
    have hmem : p ∈ f.points.filter (fun p => decide (p.y = v)) := by
      rw [List.mem_filter]
      exact ⟨hp, decide_eq_true hpy⟩
    have hne : f.points.filter (fun p => decide (p.y = v)) ≠ [] := by
      intro hc
      rw [hc] at hmem
      exact absurd hmem (List.not_mem_nil p)
    cases hgl : (f.points.filter (fun p => decide (p.y = v))).getLast? with
    | none => exact absurd (List.getLast?_eq_none_iff.mp hgl) hne
    | some p' => simp

theorem pathInflowRateChanges_count (path_inflows : List PiecewiseConstant)
    (i : ℕ) (f : PiecewiseConstant) (hf : path_inflows.get? i = some f) :
    (((pathInflowRateChanges path_inflows).map Prod.fst).filter
      (fun k => decide (k.1 = i))).length = (f.points.map Pt.y).dedup.length := by
  set K := ((pathInflowRateChanges path_inflows).map Prod.fst).filter
      (fun k => decide (k.1 = i)) with hK
  have hndK : K.Nodup :=
    List.Nodup.filter _ (pathInflowRateChanges_keysND path_inflows)
  have hfst : ∀ k ∈ K, k.1 = i := by
    intro k hk
    exact of_decide_eq_true (List.mem_filter.mp hk).2
  have hndS : (K.map Prod.snd).Nodup := by
    apply List.Nodup.map_on _ hndK
    intro a ha b hb hab
    exact Prod.ext ((hfst a ha).trans (hfst b hb).symm) hab
  have hmem : ∀ v : FQ, v ∈ K.map Prod.snd ↔ v ∈ (f.points.map Pt.y).dedup := by
    intro v
    rw [List.mem_dedup]
    constructor
    · intro hv
      obtain ⟨k, hk, hkv⟩ := List.mem_map.mp hv
      have hk2 : k = (i, v) := Prod.ext (hfst k hk) hkv
      have hkmem : k ∈ (pathInflowRateChanges path_inflows).map Prod.fst :=
        (List.mem_filter.mp hk).1
      rw [hk2] at hkmem
      obtain ⟨f', hf', hv'⟩ :=
        (pathInflowRateChanges_mem_keys path_inflows i v).mp hkmem
      rw [hf] at hf'
      injection hf' with hf'
      rw [hf']
      exact hv'
    · intro hv
      have hkmem : (i, v) ∈ (pathInflowRateChanges path_inflows).map Prod.fst :=
        (pathInflowRateChanges_mem_keys path_inflows i v).mpr ⟨f, hf, hv⟩
      have hk : (i, v) ∈ K := by
        rw [hK]
        exact List.mem_filter.mpr ⟨hkmem, decide_eq_true rfl⟩
      exact List.mem_map.mpr ⟨(i, v), hk, rfl⟩
  have hperm : List.Perm (K.map Prod.snd) ((f.points.map Pt.y).dedup) :=
    (List.perm_ext_iff_of_nodup hndS (List.nodup_dedup _)).mpr hmem
  have hlen := hperm.length_eq
  rw [List.length_map] at hlen
  exact hlen

/-- C10: `NetworkLoader::new` keys its path-inflow change queue by the
pair (path index, rate value): the key list is duplicate-free, the time
stored for `(i, v)` is the time of the LAST breakpoint of path `i`
carrying value `v` (a later `push` replaces the earlier entry's scheduled
time), and the number of queued entries for path `i` equals the number of
distinct rate values of its schedule, not its number of breakpoints. -/
theorem C10_path_inflow_queue_keyed_by_value
    (path_inflows : List PiecewiseConstant) (i : ℕ) (f : PiecewiseConstant)
    (hf : path_inflows.get? i = some f) :
    keysND (pathInflowRateChanges path_inflows) ∧
    (∀ v : FQ, lookupA (pathInflowRateChanges path_inflows) (i, v) =
      ((f.points.filter (fun p => decide (p.y = v))).getLast?).map Pt.x) ∧
    (((pathInflowRateChanges path_inflows).map Prod.fst).filter
      (fun k => decide (k.1 = i))).length = (f.points.map Pt.y).dedup.length := by
  refine ⟨pathInflowRateChanges_keysND path_inflows, ?_,
    pathInflowRateChanges_count path_inflows i f hf⟩
  intro v
  rw [pathInflowRateChanges_lookup path_inflows i v, hf]

theorem C10_witness :
    ([c10Pc].get? 0 = some c10Pc) ∧
    (keysND (pathInflowRateChanges [c10Pc]) ∧
    (∀ v : FQ, lookupA (pathInflowRateChanges [c10Pc]) (0, v) =
      ((c10Pc.points.filter (fun p => decide (p.y = v))).getLast?).map Pt.x) ∧
    (((pathInflowRateChanges [c10Pc]).map Prod.fst).filter
      (fun k => decide (k.1 = 0))).length = (c10Pc.points.map Pt.y).dedup.length) :=
  ⟨rfl, C10_path_inflow_queue_keyed_by_value [c10Pc] 0 c10Pc rfl⟩

section C9Lemmas

open PiecewiseLinear

theorem FQ_max_comm (a b : FQ) : FQ.max a b = FQ.max b a := by
  rw [FQ.max_eq_sup, FQ.max_eq_sup]
  exact sup_comm a b

theorem FQ_min_comm (a b : FQ) : FQ.min a b = FQ.min b a := by
  rw [FQ.min_eq_inf, FQ.min_eq_inf]
  exact inf_comm a b

theorem FQ_eq_of_not_lt {a b : FQ} (h1 : ¬ a < b) (h2 : ¬ b < a) : a = b :=
  le_antisymm (not_lt.mp h2) (not_lt.mp h1)

theorem mergeJoinBy_swap_aux : ∀ (n : ℕ) (l r : List Pt), l.length + r.length ≤ n →
    mergeJoinBy r l = (mergeJoinBy l r).map EOB.swap := by
  intro n
  induction n with
  | zero =>
    intro l r h
    cases l with
    | nil =>
      cases r with
      | nil => simp only [mergeJoinBy, List.map_nil]
      | cons q qs => simp at h
    | cons p ps => simp at h
  | succ n ih =>
    intro l r h
    cases l with
    | nil =>
      cases r with
      | nil => simp only [mergeJoinBy, List.map_nil]
      | cons q qs =>
        simp only [mergeJoinBy, List.map_cons, EOB.swap]
        rw [ih [] qs (by simp only [List.length_cons, List.length_nil] at h ⊢; omega)]
    | cons p ps =>
      cases r with
      | nil =>
        simp only [mergeJoinBy, List.map_cons, EOB.swap]
        rw [ih ps [] (by simp only [List.length_cons, List.length_nil] at h ⊢; omega)]
      | cons q qs =>
        by_cases h1 : p.x < q.x
        · have h2 : ¬ q.x < p.x := lt_asymm h1
          simp only [mergeJoinBy, if_pos h1, if_neg h2, List.map_cons, EOB.swap]
          rw [ih ps (q :: qs) (by simp only [List.length_cons] at h ⊢; omega)]
        · by_cases h2 : q.x < p.x
          · simp only [mergeJoinBy, if_pos h2, if_neg h1, List.map_cons, EOB.swap]
            rw [ih (p :: ps) qs (by simp only [List.length_cons] at h ⊢; omega)]
          · simp only [mergeJoinBy, if_neg h1, if_neg h2, List.map_cons, EOB.swap]
            rw [ih ps qs (by simp only [List.length_cons] at h ⊢; omega)]

theorem mergeJoinBy_swap (l r : List Pt) :
    mergeJoinBy r l = (mergeJoinBy l r).map EOB.swap :=
  mergeJoinBy_swap_aux (l.length + r.length) l r (le_refl _)

theorem mergeJoinBy_both_x_aux : ∀ (n : ℕ) (l r : List Pt) (p q : Pt),
    l.length + r.length ≤ n → EOB.both p q ∈ mergeJoinBy l r → p.x = q.x := by
  intro n
  induction n with
  | zero =>
    intro l r p q h hm
    cases l with
    | nil =>
      cases r with
      | nil =>
        simp only [mergeJoinBy] at hm
        exact absurd hm (List.not_mem_nil _)
      | cons b bs => simp at h
    | cons a as => simp at h
  | succ n ih =>
    intro l r p q h hm
    cases l with
    | nil =>
      cases r with
      | nil =>
        simp only [mergeJoinBy] at hm
        exact absurd hm (List.not_mem_nil _)
      | cons b bs =>
        simp only [mergeJoinBy, List.mem_cons] at hm
        cases hm with
        | inl h0 => exact absurd h0 (by simp)
        | inr h0 =>
          exact ih [] bs p q
            (by simp only [List.length_nil, List.length_cons] at h ⊢; omega) h0
    | cons a as =>
      cases r with
      | nil =>
        simp only [mergeJoinBy, List.mem_cons] at hm
        cases hm with
        | inl h0 => exact absurd h0 (by simp)
        | inr h0 =>
          exact ih as [] p q
            (by simp only [List.length_nil, List.length_cons] at h ⊢; omega) h0
      | cons b bs =>
        by_cases h1 : a.x < b.x
        · simp only [mergeJoinBy, if_pos h1, List.mem_cons] at hm
          cases hm with
          | inl h0 => exact absurd h0 (by simp)
          | inr h0 =>
            exact ih as (b :: bs) p q
              (by simp only [List.length_cons] at h ⊢; omega) h0
        · by_cases h2 : b.x < a.x
          · simp only [mergeJoinBy, if_neg h1, if_pos h2, List.mem_cons] at hm
            cases hm with
            | inl h0 => exact absurd h0 (by simp)
            | inr h0 =>
              exact ih (a :: as) bs p q
                (by simp only [List.length_cons] at h ⊢; omega) h0
          · simp only [mergeJoinBy, if_neg h1, if_neg h2, List.mem_cons] at hm
            cases hm with
            | inl h0 =>
              injection h0 with hpa hqb
              rw [hpa, hqb]
              exact FQ_eq_of_not_lt h1 h2
            | inr h0 =>
              exact ih as bs p q
                (by simp only [List.length_cons] at h ⊢; omega) h0

theorem mergeJoinBy_both_x (l r : List Pt) :
    ∀ (p q : Pt), EOB.both p q ∈ mergeJoinBy l r → p.x = q.x :=
  fun p q hm =>
    mergeJoinBy_both_x_aux (l.length + r.length) l r p q (le_refl _) hm

theorem sumLoop_swap (lhs rhs : PiecewiseLinear) (op : FQ → FQ → FQ)
    (hop : ∀ a b : FQ, op a b = op b a) :
    ∀ (m : List EOB), (∀ p q, EOB.both p q ∈ m → p.x = q.x) →
    ∀ (acc : List Pt) (ci cj : ℕ),
      sumLoop rhs lhs op (m.map EOB.swap) acc cj ci =
        sumLoop lhs rhs op m acc ci cj := by
  intro m
  induction m with
  | nil =>
    intro _ acc ci cj
    rfl
  | cons e rest ih =>
    intro hboth acc ci cj
    have hboth' : ∀ p q, EOB.both p q ∈ rest → p.x = q.x :=
      fun p q hpq => hboth p q (List.mem_cons_of_mem e hpq)
    cases e with
    | lft p =>
      simp only [List.map_cons, EOB.swap, sumLoop]
      rw [hop p.y (rhs.eval_with_rank (Rnk.err cj) p.x)]
      exact ih hboth' _ (ci + 1) cj
    | rgt q =>
      simp only [List.map_cons, EOB.swap, sumLoop]
      rw [hop q.y (lhs.eval_with_rank (Rnk.err ci) q.x)]
      exact ih hboth' _ ci (cj + 1)
    | both p q =>
      have hpq : p.x = q.x := hboth p q (List.mem_cons_self _ _)
      simp only [List.map_cons, EOB.swap, sumLoop]
      rw [hpq, hop q.y p.y]
      exact ih hboth' _ (ci + 1) (cj + 1)

theorem sum_op_comm (l r : PiecewiseLinear) (op : FQ → FQ → FQ)
    (hop : ∀ a b : FQ, op a b = op b a) :
    sum_op l r op = sum_op r l op := by
  have hbody : ∀ (start tail : List Pt) (i1 i2 j1 j2 : ℕ),
      sumLoop r l op
          (mergeJoinBy ((r.points.take j2).drop j1) ((l.points.take i2).drop i1))
          start j1 i1 ++ tail =
        sumLoop l r op
          (mergeJoinBy ((l.points.take i2).drop i1) ((r.points.take j2).drop j1))
          start i1 j1 ++ tail := by
    intro start tail i1 i2 j1 j2
    rw [mergeJoinBy_swap ((l.points.take i2).drop i1) ((r.points.take j2).drop j1)]
    rw [sumLoop_swap l r op hop _
      (mergeJoinBy_both_x ((l.points.take i2).drop i1) ((r.points.take j2).drop j1))
      start i1 j1]
  simp only [sum_op]
  rw [FQ_max_comm r.domain.1 l.domain.1, FQ_min_comm r.domain.2 l.domain.2]
  by_cases hc1 : FQ.max l.domain.1 r.domain.1 ≠ l.domain.1 ∨
      FQ.max l.domain.1 r.domain.1 ≠ r.domain.1
  · have hc1s : FQ.max l.domain.1 r.domain.1 ≠ r.domain.1 ∨
        FQ.max l.domain.1 r.domain.1 ≠ l.domain.1 := hc1.symm
    rw [if_pos hc1, if_pos hc1s]
    by_cases hc2 : FQ.min l.domain.2 r.domain.2 ≠ l.domain.2 ∨
        FQ.min l.domain.2 r.domain.2 ≠ r.domain.2
    · have hc2s : FQ.min l.domain.2 r.domain.2 ≠ r.domain.2 ∨
          FQ.min l.domain.2 r.domain.2 ≠ l.domain.2 := hc2.symm
      rw [if_pos hc2, if_pos hc2s]
      cases hra : l.get_rnk (FQ.max l.domain.1 r.domain.1) <;>
        cases hrb : r.get_rnk (FQ.max l.domain.1 r.domain.1) <;>
        cases hrc : l.get_rnk (FQ.min l.domain.2 r.domain.2) <;>
        cases hrd : r.get_rnk (FQ.min l.domain.2 r.domain.2) <;>
        simp only [PiecewiseLinear.mk.injEq, rnkIdx, rnkEndIdx, hop, true_and] <;>
        exact (hbody _ _ _ _ _ _).symm
    · have hc2s : ¬(FQ.min l.domain.2 r.domain.2 ≠ r.domain.2 ∨
          FQ.min l.domain.2 r.domain.2 ≠ l.domain.2) := fun hh => hc2 hh.symm
      rw [if_neg hc2, if_neg hc2s]
      cases hra : l.get_rnk (FQ.max l.domain.1 r.domain.1) <;>
        cases hrb : r.get_rnk (FQ.max l.domain.1 r.domain.1) <;>
        simp only [PiecewiseLinear.mk.injEq, rnkIdx, rnkEndIdx, hop, true_and] <;>
        exact (hbody _ _ _ _ _ _).symm
  · have hc1s : ¬(FQ.max l.domain.1 r.domain.1 ≠ r.domain.1 ∨
        FQ.max l.domain.1 r.domain.1 ≠ l.domain.1) := fun hh => hc1 hh.symm
    rw [if_neg hc1, if_neg hc1s]
    by_cases hc2 : FQ.min l.domain.2 r.domain.2 ≠ l.domain.2 ∨
        FQ.min l.domain.2 r.domain.2 ≠ r.domain.2
    · have hc2s : FQ.min l.domain.2 r.domain.2 ≠ r.domain.2 ∨
          FQ.min l.domain.2 r.domain.2 ≠ l.domain.2 := hc2.symm
      rw [if_pos hc2, if_pos hc2s]
      cases hrc : l.get_rnk (FQ.min l.domain.2 r.domain.2) <;>
        cases hrd : r.get_rnk (FQ.min l.domain.2 r.domain.2) <;>
        simp only [PiecewiseLinear.mk.injEq, rnkIdx, rnkEndIdx, hop, true_and] <;>
        exact (hbody _ _ _ _ _ _).symm
    · have hc2s : ¬(FQ.min l.domain.2 r.domain.2 ≠ r.domain.2 ∨
          FQ.min l.domain.2 r.domain.2 ≠ l.domain.2) := fun hh => hc2 hh.symm
      rw [if_neg hc2, if_neg hc2s]
      simp only [PiecewiseLinear.mk.injEq, hop, true_and]
      exact (hbody _ _ _ _ _ _).symm

end C9Lemmas

/-- C9: pointwise addition of `PiecewiseLinear` functions is commutative
on the nose: for all `f` and `g`, `f + g` and `g + f` have the same
domain, the same `first_slope` and `last_slope`, and identical point
lists.  This is stronger than the claimed equality up to `TOL`-merging
(identical point lists are in particular equal up to merging). -/
theorem C9_addPL_comm (f g : PiecewiseLinear) :
    PiecewiseLinear.addPL f g = PiecewiseLinear.addPL g f :=
  sum_op_comm f g (fun a b => a + b) FQ.add_comm'
